import Mathlib

/-!
Flatteners of the Docker provider (`docker/structure.go`)

A shallow embedding of the functions of `docker/structure.go`, which turn Docker
Swarm API values into the generic attribute representation of the Terraform
schema (`[]interface{}`, `map[string]interface{}`, `*schema.Set`), followed by
theorems about them.

Conventions of the embedding:

* a Go pointer `*T` is an `Option T` (`none` is the nil pointer);
* a Go slice `[]T` is a `Slice T`, which keeps the nil slice apart from the empty
  one; a Go `map[string]string` is a `StringMap`, nil or a list of entries;
* a value stored in an `interface{}` is a `Value`, which records the dynamic type
  next to the payload;
* a run-time panic is the `error` case of `Except Panic`;
* Go's `int` is taken to be 64 bits wide.
-/

namespace Docker

/-! ## Go values -/

/-- A Go slice: the nil slice, or a slice with the listed elements. -/
inductive Slice (α : Type) where
  | nil : Slice α
  | ofList (xs : List α) : Slice α
  deriving Repr, DecidableEq

/-- The elements of a slice, as ranged over by `for _, v := range s`. -/
def Slice.elems {α : Type} : Slice α → List α
  | .nil => []
  | .ofList xs => xs

/-- Go's `s == nil` on a slice. -/
def Slice.isNil {α : Type} : Slice α → Bool
  | .nil => true
  | .ofList _ => false

/-- Go's `len(s)` on a slice. -/
def Slice.len {α : Type} (s : Slice α) : Nat :=
  s.elems.length

/-- A Go `map[string]string`: the nil map or a map with the listed entries. -/
abbrev StringMap := Slice (String × String)

/-- The run-time panics the flatteners can raise. -/
inductive Panic where
  /-- Indexing a slice of length `len` at `idx`, with `len ≤ idx`. -/
  | indexOutOfRange (idx len : Nat)
  /-- Reading a field through a nil pointer. -/
  | nilPointerDereference
  /-- A failed type assertion `v.(T)`. -/
  | typeAssertion
  deriving Repr, DecidableEq

/-- A value held in a Go `interface{}`. The constructor is the dynamic type. -/
inductive Value where
  /-- A `bool`. -/
  | bool (b : Bool)
  /-- An `int`. -/
  | int (n : Int)
  /-- An `int64`. -/
  | int64 (n : Int)
  /-- A `uint32`. -/
  | uint32 (n : Nat)
  /-- A `uint64`. -/
  | uint64 (n : Nat)
  /-- A `string`. -/
  | str (s : String)
  /-- A value of a named string type, such as `mount.Type`. -/
  | named (typeName : String) (s : String)
  /-- A `[]string`. -/
  | strings (xs : Slice String)
  /-- A `map[string]string`. -/
  | stringMap (m : StringMap)
  /-- The method value `mode.Perm` of an `os.FileMode` receiver `mode`:
  a `func() os.FileMode` that has not been called. -/
  | permMethod (mode : Nat)
  /-- A `[]interface{}`. -/
  | list (xs : List Value)
  /-- A `map[string]interface{}`, as its entries. -/
  | map (entries : List (String × Value))
  /-- A `*schema.Set`, as its entries: hash code and element. -/
  | set (entries : List (String × Value))

/-- The entries of a `map[string]interface{}`. -/
abbrev AttrMap := List (String × Value)

/-- The assignment `m[k] = v` on a map. -/
def AttrMap.set : AttrMap → String → Value → AttrMap
  | [], k, v => [(k, v)]
  | (k', v') :: rest, k, v =>
    if k' = k then (k, v) :: rest else (k', v') :: AttrMap.set rest k v

/-- The lookup `m[k]` on a map, `none` when the key is absent. -/
def AttrMap.get : AttrMap → String → Option Value
  | [], _ => none
  | (k', v') :: rest, k => if k' = k then some v' else AttrMap.get rest k

/-- The keys of a map. -/
def AttrMap.keys (m : AttrMap) : List String :=
  m.map Prod.fst

/-! ## The standard library functions the flatteners call -/

/-- The pieces of `strings.Split(s, sep)` for a separator of one character, on
the characters of `s`; there is always at least one piece. -/
def splitChars (sep : Char) : List Char → List (List Char)
  | [] => [[]]
  | c :: cs =>
    if c = sep then [] :: splitChars sep cs
    else
      match splitChars sep cs with
      | [] => [[c]]
      | p :: ps => (c :: p) :: ps

/-- Go's `strings.Split(s, sep)` for a separator `sep` of one character. -/
def stringsSplit (s : String) (sep : Char) : List String :=
  (splitChars sep s.data).map String.mk

/-- Go's index expression `xs[i]`, which panics when `i` is out of range. -/
def index {α : Type} (xs : List α) (i : Nat) : Except Panic α :=
  match xs.get? i with
  | some x => .ok x
  | none => .error (.indexOutOfRange i xs.length)

/-- Go's `strings.HasSuffix(s, suffix)`. -/
def stringsHasSuffix (s suffix : String) : Bool :=
  suffix.data.isSuffixOf s.data

/-- The slice expression `s[:len(s)-2]` on a string whose last two bytes are
two ASCII characters, which is how `shortDur` uses it. -/
def dropLastTwo (s : String) : String :=
  String.mk (s.data.take (s.data.length - 2))

/-- The conversion `int(x)` of an unsigned 64-bit value: the value modulo
`2 ^ 64`, read as a signed 64-bit integer. -/
def toInt (x : Nat) : Int :=
  if x % 2 ^ 64 < 2 ^ 63 then ((x % 2 ^ 64 : Nat) : Int)
  else ((x % 2 ^ 64 : Nat) : Int) - 2 ^ 64

/-- The conversion `int(x)` of a `uint32`: every `uint32` fits in an `int`. -/
def uint32ToInt (x : Nat) : Int :=
  (x : Int)

/-- The negation `-x` of an `int`, which wraps at the least value. -/
def negInt (x : Int) : Int :=
  if x = -(2 ^ 63) then x else -x

/-! ### `time.Duration.String` -/

/-- The byte `byte(d) + '0'` of a decimal digit `d`. -/
def digitChar (d : Nat) : Char :=
  Char.ofNat (48 + d)

/-- The loop of `fmtInt`: prepends the digits of `v` while `v > 0`. Twenty
rounds are enough for an unsigned 64-bit `v`. -/
def fmtIntLoop : Nat → Nat → List Char → List Char
  | 0, _, buf => buf
  | fuel + 1, v, buf =>
    if v > 0 then fmtIntLoop fuel (v / 10) (digitChar (v % 10) :: buf) else buf

/-- `fmtInt` of package `time`: writes `v` in decimal in front of `buf`. -/
def fmtInt (buf : List Char) (v : Nat) : List Char :=
  if v = 0 then '0' :: buf else fmtIntLoop 20 v buf

/-- The loop of `fmtFrac`, `prec` rounds: the buffer, the remaining value and
whether a digit was written. -/
def fmtFracLoop : Nat → Nat → Bool → List Char → List Char × Nat × Bool
  | 0, v, print, buf => (buf, v, print)
  | i + 1, v, print, buf =>
    let digit := v % 10
    let print := print || digit != 0
    let buf := if print then digitChar digit :: buf else buf
    fmtFracLoop i (v / 10) print buf

/-- `fmtFrac` of package `time`: writes the fraction of `v / 10 ^ prec` in front
of `buf`, without trailing zeros, and returns `v / 10 ^ prec` with it. -/
def fmtFrac (buf : List Char) (v : Nat) (prec : Nat) : List Char × Nat :=
  let r := fmtFracLoop prec v false buf
  (if r.2.2 then '.' :: r.1 else r.1, r.2.1)

/-- `time.Duration.String`: the text of a duration `d` in nanoseconds, such as
`72h3m0.5s`, `1.5ms` or `0s`. -/
def durationString (d : Int) : String :=
  let u : Nat := d.natAbs
  let neg : Bool := decide (d < 0)
  let buf : List Char :=
    if u < 1000000000 then
      if u = 0 then
        ['0', 's']
      else if u < 1000 then
        let r := fmtFrac ['n', 's'] u 0
        fmtInt r.1 r.2
      else if u < 1000000 then
        let r := fmtFrac ['µ', 's'] u 3
        fmtInt r.1 r.2
      else
        let r := fmtFrac ['m', 's'] u 6
        fmtInt r.1 r.2
    else
      let r := fmtFrac ['s'] u 9
      let buf := fmtInt r.1 (r.2 % 60)
      let u := r.2 / 60
      if u > 0 then
        let buf := fmtInt ('m' :: buf) (u % 60)
        let u := u / 60
        if u > 0 then fmtInt ('h' :: buf) u else buf
      else
        buf
  String.mk (if neg then '-' :: buf else buf)

/-! ### The shape of the text of a duration -/

/-- The decimal numeral of `n`, without leading zeros. -/
def decimal (n : ℕ) : List Char :=
  if n < 10 then [digitChar n] else decimal (n / 10) ++ [digitChar (n % 10)]
termination_by n
decreasing_by omega

/-- The last `i` decimal digits of `v`, leading zeros included. -/
def digitsPad : ℕ → ℕ → List Char
  | 0, _ => []
  | i + 1, v => digitsPad i (v / 10) ++ [digitChar (v % 10)]

/-- The last `i` decimal digits of `v` without the trailing zeros; empty when
they are all zero. -/
def fracDigits : ℕ → ℕ → List Char
  | 0, _ => []
  | i + 1, v =>
    if v % 10 = 0 then fracDigits i (v / 10) else digitsPad i (v / 10) ++ [digitChar (v % 10)]

/-- The fraction of `v / 10 ^ prec` as `fmtFrac` writes it: nothing when it is
zero, else a point and the digits without trailing zeros. -/
def fracPart (prec v : ℕ) : List Char :=
  if v % 10 ^ prec = 0 then [] else '.' :: fracDigits prec v

/-- The hours and minutes of a duration of `m` whole minutes, as
`time.Duration.String` writes them in front of the seconds. -/
def hmPart (m : ℕ) : List Char :=
  if m = 0 then []
  else (if m / 60 = 0 then [] else decimal (m / 60) ++ ['h']) ++ decimal (m % 60) ++ ['m']

/-- The text of a duration of `u` nanoseconds, `u` not negative, in closed
form. -/
def durationBody (u : ℕ) : List Char :=
  if u = 0 then ['0', 's']
  else if u < 1000 then decimal u ++ ['n', 's']
  else if u < 1000000 then decimal (u / 1000) ++ fracPart 3 u ++ ['µ', 's']
  else if u < 1000000000 then decimal (u / 1000000) ++ fracPart 6 u ++ ['m', 's']
  else
    hmPart (u / 1000000000 / 60) ++ decimal (u / 1000000000 % 60) ++ fracPart 9 u ++ ['s']

/-! ### Reading the text of a duration back -/

/-- The state of reading the text of a duration from its last character to its
first: the nanoseconds of the components read in full, the unit of the
component being read in nanoseconds, the digits of it read so far as a number,
the place value of its next digit, whether the last character was `s`, and
whether a `-` was read. -/
structure ReadState where
  total : ℕ
  unit : ℕ
  cur : ℕ
  place : ℕ
  lastS : Bool
  neg : Bool
  deriving Repr, DecidableEq

/-- The nanoseconds read, the component being read included. -/
def ReadState.flush (st : ReadState) : ℕ :=
  st.total + st.cur * st.unit

/-- Reading one character. A unit letter closes the component before it and
sets the unit (`m` is milliseconds right before `s`, minutes elsewhere); a
point turns the digits read so far into a fraction of the unit; a digit is the
next higher digit of the number. -/
def readStep (st : ReadState) (c : Char) : ReadState :=
  if c = 's' then ⟨st.flush, 1000000000, 0, 1, true, st.neg⟩
  else if c = 'm' then
    ⟨st.flush, if st.lastS then 1000000 else 60000000000, 0, 1, false, st.neg⟩
  else if c = 'n' then ⟨st.flush, 1, 0, 1, false, st.neg⟩
  else if c = 'µ' then ⟨st.flush, 1000, 0, 1, false, st.neg⟩
  else if c = 'h' then ⟨st.flush, 3600000000000, 0, 1, false, st.neg⟩
  else if c = '.' then ⟨st.total + st.cur * st.unit / st.place, st.unit, 0, 1, false, st.neg⟩
  else if c = '-' then ⟨st.total, st.unit, st.cur, st.place, st.lastS, true⟩
  else ⟨st.total, st.unit, st.cur + (c.toNat - 48) * st.place, st.place * 10, false, st.neg⟩

/-- The duration in nanoseconds that a text of `shortDur` stands for. -/
def readDuration (s : String) : ℤ :=
  let st := s.data.reverse.foldl readStep ⟨0, 1, 0, 1, false, false⟩
  if st.neg then -(st.flush : ℤ) else (st.flush : ℤ)

/-! ### `strconv.FormatFloat` -/

/-- A `float32`, as its IEEE 754 bit pattern: one sign bit, eight exponent bits
and twenty-three fraction bits. -/
structure Float32 where
  bits : Nat
  deriving Repr, DecidableEq

/-- `strconv.FormatFloat(float64(x), 'f', 1, 64)`: the value of `x`, exact in
`float64`, rounded to one digit after the decimal point, to even on a tie. -/
def formatFloat (x : Float32) : String :=
  let sign := x.bits / 2 ^ 31 % 2
  let e := x.bits / 2 ^ 23 % 256
  let frac := x.bits % 2 ^ 23
  if e = 255 then
    if frac ≠ 0 then "NaN" else if sign = 1 then "-Inf" else "+Inf"
  else
    -- the value is `num / den`
    let mant := if e = 0 then frac else 2 ^ 23 + frac
    let ex := if e = 0 then 1 else e
    let num := if ex ≥ 150 then mant * 2 ^ (ex - 150) else mant
    let den := if ex ≥ 150 then 1 else 2 ^ (150 - ex)
    let q := 10 * num / den
    let r := 10 * num % den
    let tenths := if 2 * r > den then q + 1 else if 2 * r = den then q + q % 2 else q
    (if sign = 1 then "-" else "") ++ toString (tenths / 10) ++ "." ++ toString (tenths % 10)

/-- Whether a `float32` is finite: neither a NaN nor an infinity, which have all
exponent bits set. -/
def Float32.isFinite (x : Float32) : Bool :=
  x.bits / 2 ^ 23 % 256 != 255

/-- Whether the sign bit of a `float32` is set. -/
def Float32.isNegative (x : Float32) : Bool :=
  x.bits / 2 ^ 31 % 2 == 1

/-- The absolute value of a finite `float32` as a rational number, by IEEE 754:
`frac * 2 ^ (-149)` for a subnormal number and zero (no exponent bit set), and
`(2 ^ 23 + frac) * 2 ^ (e - 150)` for the exponent bits `e` otherwise. -/
def Float32.magnitude (x : Float32) : ℚ :=
  let e : ℕ := x.bits / 2 ^ 23 % 256
  let frac : ℕ := x.bits % 2 ^ 23
  if e = 0 then (frac : ℚ) * 2 ^ (-149 : ℤ)
  else ((2 ^ 23 + frac : ℕ) : ℚ) * 2 ^ ((e : ℤ) - 150)

/-- The numerator of the fraction that `formatFloat` computes for the absolute
value of a finite `float32`. -/
def Float32.num (x : Float32) : ℕ :=
  let e : ℕ := x.bits / 2 ^ 23 % 256
  let frac : ℕ := x.bits % 2 ^ 23
  let mant : ℕ := if e = 0 then frac else 2 ^ 23 + frac
  let ex : ℕ := if e = 0 then 1 else e
  if ex ≥ 150 then mant * 2 ^ (ex - 150) else mant

/-- The denominator of the fraction that `formatFloat` computes for the absolute
value of a finite `float32`. -/
def Float32.den (x : Float32) : ℕ :=
  let e : ℕ := x.bits / 2 ^ 23 % 256
  let ex : ℕ := if e = 0 then 1 else e
  if ex ≥ 150 then 1 else 2 ^ (150 - ex)

/-- The integer nearest to `n / den`, the even one on a tie, the way
`formatFloat` computes it. -/
def roundHalfEven (n den : ℕ) : ℕ :=
  let q := n / den
  let r := n % den
  if 2 * r > den then q + 1 else if 2 * r = den then q + q % 2 else q

/-! ### `hashcode.String` -/

/-- The bytes of a character in UTF-8, the encoding of a Go string. -/
def utf8Bytes (c : Char) : List ℕ :=
  let n := c.toNat
  if n < 0x80 then [n]
  else if n < 0x800 then [0xC0 + n / 64, 0x80 + n % 64]
  else if n < 0x10000 then [0xE0 + n / 4096, 0x80 + n / 64 % 64, 0x80 + n % 64]
  else [0xF0 + n / 262144, 0x80 + n / 4096 % 64, 0x80 + n / 64 % 64, 0x80 + n % 64]

/-- One bit of the CRC-32 of IEEE 802.3, with the reversed polynomial
`0xEDB88320`. -/
def crc32Bit (crc : ℕ) : ℕ :=
  if crc % 2 = 1 then (crc / 2) ^^^ 0xEDB88320 else crc / 2

/-- One byte of the CRC-32: the byte is folded in and eight bits are shifted
out. -/
def crc32Byte (crc : ℕ) (b : ℕ) : ℕ :=
  crc32Bit (crc32Bit (crc32Bit (crc32Bit (crc32Bit (crc32Bit (crc32Bit (crc32Bit
    (crc ^^^ b))))))))

/-- `crc32.ChecksumIEEE` of Go's package `hash/crc32`, on a list of bytes. -/
def crc32ChecksumIEEE (bytes : List ℕ) : ℕ :=
  (bytes.foldl crc32Byte 0xFFFFFFFF) ^^^ 0xFFFFFFFF

/-- `hashcode.String` of the Terraform helper library, the hash code behind
`schema.HashString`: the CRC-32 of the bytes of the string as an `int`, made
non-negative. -/
def hashcodeString (s : String) : Int :=
  let v : Int := (crc32ChecksumIEEE (s.data.flatMap utf8Bytes) : ℕ)
  if v ≥ 0 then v
  else if -v ≥ 0 then -v
  else 0

/-! ## The set of the Terraform schema -/

namespace schema

/-- The type `schema.SchemaSetFunc`: the hash code of an element. -/
abbrev SchemaSetFunc := Value → Except Panic Int

/-- `schema.HashString`: `hashcode.String(v.(string))`. The type assertion
panics on an element that is not a `string`; `hashcodeString` is the hash code
`hashcode.String` of a string. -/
def HashString (hashcodeString : String → Int) : SchemaSetFunc
  | .str s => .ok (hashcodeString s)
  | _ => .error .typeAssertion

/-- The method `hash` of `schema.Set`: the key of an element, the decimal text
of its hash code made non-negative. -/
def hash (F : SchemaSetFunc) (item : Value) : Except Panic String := do
  let code ← F item
  let code := if code < 0 then negInt code else code
  pure (toString code)

/-- The method `Add` of `schema.Set`: the element is stored under its key
unless the key is there already. -/
def add (F : SchemaSetFunc) (m : AttrMap) (item : Value) : Except Panic AttrMap := do
  let code ← hash F item
  if (m.get code).isSome then pure m else pure (m.set code item)

/-- `schema.NewSet(f, items)`: the elements are added one by one. -/
def NewSet (F : SchemaSetFunc) (items : List Value) : Except Panic Value := do
  let m ← items.foldlM (add F) []
  pure (.set m)

/-- The key under which a set hashed with `schema.HashString` stores the
string `s`: the result of `hash` on it. -/
def stringKey (hashcodeString : String → Int) (s : String) : String :=
  toString (if hashcodeString s < 0 then negInt (hashcodeString s) else hashcodeString s)

/-- Whether the string `s` is an element of the set `v` (one of `v.List()`). -/
def hasString (v : Value) (s : String) : Bool :=
  match v with
  | .set entries =>
    entries.any (fun p =>
      match p.2 with
      | .str t => t == s
      | _ => false)
  | _ => false

/-- The string `s` is the first string of `xs` with its key: it occurs in `xs`,
and no string before this occurrence is stored under the same key. -/
def firstWithKey (F : SchemaSetFunc) (xs : List String) (s : String) : Prop :=
  ∃ pre post : List String, xs = pre ++ s :: post ∧
    ∀ t ∈ pre, hash F (.str t) ≠ hash F (.str s)

end schema

/-! ## The input types of the Docker API -/

/-- Modelled from the spec: the external input type `swarm.ReplicatedService`
of the Docker Engine API client library; `Replicas` is a `*uint64`. -/
structure ReplicatedService where
  Replicas : Option Nat
  deriving Repr, DecidableEq

/-- Modelled from the spec: the external input type `swarm.GlobalService`, a
struct without fields. -/
structure GlobalService where
  deriving Repr, DecidableEq

/-- Modelled from the spec: the external input type `swarm.ServiceMode`, with
the fields the code reads. -/
structure ServiceMode where
  Replicated : Option ReplicatedService
  Global : Option GlobalService
  deriving Repr, DecidableEq

/-- Modelled from the spec: the external input type
`swarm.NetworkAttachmentConfig`, with the field the code reads. -/
structure NetworkAttachmentConfig where
  Target : String
  deriving Repr, DecidableEq

/-- Modelled from the spec: the external input type `mount.BindOptions`;
`Propagation` has the named string type `mount.Propagation`. -/
structure BindOptions where
  Propagation : String
  deriving Repr, DecidableEq

/-- Modelled from the spec: the external input type `mount.Driver`. -/
structure MountDriver where
  Name : String
  Options : StringMap
  deriving Repr, DecidableEq

/-- Modelled from the spec: the external input type `mount.VolumeOptions`. -/
structure VolumeOptions where
  NoCopy : Bool
  Labels : StringMap
  DriverConfig : Option MountDriver
  deriving Repr, DecidableEq

/-- Modelled from the spec: the external input type `mount.TmpfsOptions`;
`SizeBytes` is an `int64` and `Mode` an `os.FileMode`, a `uint32`. -/
structure TmpfsOptions where
  SizeBytes : Int
  Mode : Nat
  deriving Repr, DecidableEq

/-- Modelled from the spec: the external input type `mount.Mount`; `Type` and
`Consistency` have the named string types `mount.Type` and
`mount.Consistency` (the field `Type` is written `Typ`, `Type` being reserved). -/
structure Mount where
  Typ : String
  Source : String
  Target : String
  ReadOnly : Bool
  Consistency : String
  BindOptions : Option BindOptions
  VolumeOptions : Option VolumeOptions
  TmpfsOptions : Option TmpfsOptions
  deriving Repr, DecidableEq

/-- Modelled from the spec: the external input types
`swarm.ConfigReferenceFileTarget` and `swarm.SecretReferenceFileTarget`, with
the field the code reads. -/
structure ReferenceFileTarget where
  Name : String
  deriving Repr, DecidableEq

/-- Modelled from the spec: the external input type `swarm.ConfigReference`. -/
structure ConfigReference where
  File : Option ReferenceFileTarget
  ConfigID : String
  ConfigName : String
  deriving Repr, DecidableEq

/-- Modelled from the spec: the external input type `swarm.SecretReference`. -/
structure SecretReference where
  File : Option ReferenceFileTarget
  SecretID : String
  SecretName : String
  deriving Repr, DecidableEq

/-- Modelled from the spec: the external input type `swarm.PortConfig`, with
the fields the code reads; the ports are `uint32`, `Protocol` and `PublishMode`
have the named string types `swarm.PortConfigProtocol` and
`swarm.PortConfigPublishMode`. -/
structure PortConfig where
  Protocol : String
  TargetPort : Nat
  PublishedPort : Nat
  PublishMode : String
  deriving Repr, DecidableEq

/-- Modelled from the spec: the external input type `swarm.UpdateConfig`;
`Parallelism` is a `uint64`, `Delay` and `Monitor` are `time.Duration`, a count
of nanoseconds in an `int64`, and `MaxFailureRatio` is a `float32`. -/
structure UpdateConfig where
  Parallelism : Nat
  Delay : Int
  FailureAction : String
  Monitor : Int
  MaxFailureRatio : Float32
  Order : String
  deriving Repr, DecidableEq

/-- Modelled from the spec: the external input type `swarm.SpreadOver`. -/
structure SpreadOver where
  SpreadDescriptor : String
  deriving Repr, DecidableEq

/-- Modelled from the spec: the external input type
`swarm.PlacementPreference`; `Spread` is a `*SpreadOver`. -/
structure PlacementPreference where
  Spread : Option SpreadOver
  deriving Repr, DecidableEq

/-- Modelled from the spec: the external input type `swarm.Platform`. -/
structure Platform where
  Architecture : String
  OS : String
  deriving Repr, DecidableEq

/-- Modelled from the spec: the external input type `swarm.Placement`, with
the fields the code reads. -/
structure Placement where
  Constraints : Slice String
  Preferences : Slice PlacementPreference
  Platforms : Slice Platform
  deriving Repr, DecidableEq

/-- Modelled from the spec: the external input type `swarm.Driver`. -/
structure Driver where
  Name : String
  Options : StringMap
  deriving Repr, DecidableEq

/-- Modelled from the spec: the external input type `container.HealthConfig`;
the three durations are `time.Duration` and `Retries` is an `int`. -/
structure HealthConfig where
  Test : Slice String
  Interval : Int
  Timeout : Int
  StartPeriod : Int
  Retries : Int
  deriving Repr, DecidableEq

/-- Modelled from the spec: the external input type `swarm.DNSConfig`. -/
structure DNSConfig where
  Nameservers : Slice String
  Search : Slice String
  Options : Slice String
  deriving Repr, DecidableEq

/-! ## The flatteners -/

/-- `flattenReplicated` of `docker/structure.go`. -/
def flattenReplicated (inp : Option ReplicatedService) : List Value :=
  let out : List Value := []
  let m : AttrMap := []
  let m : AttrMap :=
    match inp with
    | some r =>
      match r.Replicas with
      | some replicas => m.set "replicas" (.int (toInt replicas))
      | none => m
    | none => m
  out ++ [.map m]

/-- `flattenServiceMode` of `docker/structure.go`. -/
def flattenServiceMode (inp : ServiceMode) : List Value :=
  let m : AttrMap := []
  let m : AttrMap :=
    if inp.Replicated.isSome then m.set "replicated" (.list (flattenReplicated inp.Replicated))
    else m
  let m : AttrMap :=
    if inp.Global.isSome then m.set "global" (.bool true)
    else m.set "global" (.bool false)
  [.map m]

/-- The body of the loop of `flattenServiceHosts`, for one entry `v`;
`split[1]` panics when `v` has no `:`. -/
def flattenServiceHostsEntry (v : String) : Except Panic AttrMap := do
  let m : AttrMap := []
  let split := stringsSplit v ':'
  let m : AttrMap := m.set "host" (.str (← index split 0))
  let m : AttrMap := m.set "ip" (.str (← index split 1))
  pure m

/-- `flattenServiceHosts` of `docker/structure.go`. -/
def flattenServiceHosts (inp : Slice String) : Except Panic (List Value) :=
  if inp.isNil || inp.len == 0 then
    .ok []
  else
    inp.elems.mapM (fun v => do pure (.map (← flattenServiceHostsEntry v)))

/-- `flattenServiceNetworks` of `docker/structure.go`. -/
def flattenServiceNetworks (inp : Slice NetworkAttachmentConfig) : List Value :=
  if inp.isNil || inp.len == 0 then
    []
  else
    inp.elems.map (fun v => .str v.Target)

/-- The body of the loop of `flattenServiceMounts`, for one mount `v`. The
entry `tmpfs_mode` is the method value `v.TmpfsOptions.Mode.Perm`: the source
does not call it. -/
def flattenServiceMountsEntry (v : Mount) : AttrMap :=
  let m : AttrMap := []
  let m : AttrMap := m.set "target" (.str v.Target)
  let m : AttrMap := m.set "source" (.str v.Source)
  let m : AttrMap := m.set "type" (.named "mount.Type" v.Typ)
  let m : AttrMap :=
    if v.Consistency.utf8ByteSize > 0 then
      m.set "consistency" (.named "mount.Consistency" v.Consistency)
    else m
  let m : AttrMap := m.set "read_only" (.bool v.ReadOnly)
  let m : AttrMap :=
    match v.BindOptions with
    | some b => m.set "bind_propagation" (.named "mount.Propagation" b.Propagation)
    | none => m
  let m : AttrMap :=
    match v.VolumeOptions with
    | some vo =>
      let m : AttrMap := m.set "volume_no_copy" (.bool vo.NoCopy)
      let m : AttrMap := m.set "volume_labels" (.stringMap vo.Labels)
      match vo.DriverConfig with
      | some dc =>
        let m : AttrMap := m.set "volume_driver_name" (.str dc.Name)
        m.set "volume_driver_options" (.stringMap dc.Options)
      | none => m
    | none => m
  let m : AttrMap :=
    match v.TmpfsOptions with
    | some t =>
      let m : AttrMap := m.set "tmpfs_size_bytes" (.int64 t.SizeBytes)
      m.set "tmpfs_mode" (.permMethod t.Mode)
    | none => m
  m

/-- `flattenServiceMounts` of `docker/structure.go`. -/
def flattenServiceMounts (inp : Slice Mount) : List Value :=
  if inp.isNil || inp.len == 0 then
    []
  else
    inp.elems.map (fun v => .map (flattenServiceMountsEntry v))

/-- The body of the loop of `flattenServiceConfigs`, for one reference `v`,
a pointer: reading a field of a nil `v` panics. -/
def flattenServiceConfigsEntry (v : Option ConfigReference) : Except Panic AttrMap :=
  match v with
  | none => .error .nilPointerDereference
  | some c =>
    let m : AttrMap := []
    let m : AttrMap := m.set "config_id" (.str c.ConfigID)
    let m : AttrMap :=
      if c.ConfigName.utf8ByteSize > 0 then m.set "config_name" (.str c.ConfigName) else m
    let m : AttrMap :=
      match c.File with
      | some f => m.set "file_name" (.str f.Name)
      | none => m
    .ok m

/-- `flattenServiceConfigs` of `docker/structure.go`. -/
def flattenServiceConfigs (inp : Slice (Option ConfigReference)) : Except Panic (List Value) :=
  if inp.isNil || inp.len == 0 then
    .ok []
  else
    inp.elems.mapM (fun v => do pure (.map (← flattenServiceConfigsEntry v)))

/-- The body of the loop of `flattenServiceSecrets`, for one reference `v`,
a pointer: reading a field of a nil `v` panics. -/
def flattenServiceSecretsEntry (v : Option SecretReference) : Except Panic AttrMap :=
  match v with
  | none => .error .nilPointerDereference
  | some c =>
    let m : AttrMap := []
    let m : AttrMap := m.set "secret_id" (.str c.SecretID)
    let m : AttrMap :=
      if c.SecretName.utf8ByteSize > 0 then m.set "secret_name" (.str c.SecretName) else m
    let m : AttrMap :=
      match c.File with
      | some f => m.set "file_name" (.str f.Name)
      | none => m
    .ok m

/-- `flattenServiceSecrets` of `docker/structure.go`. -/
def flattenServiceSecrets (inp : Slice (Option SecretReference)) : Except Panic (List Value) :=
  if inp.isNil || inp.len == 0 then
    .ok []
  else
    inp.elems.mapM (fun v => do pure (.map (← flattenServiceSecretsEntry v)))

/-- The body of the loop of `flattenServicePorts`, for one port `v`. -/
def flattenServicePortsEntry (v : PortConfig) : AttrMap :=
  let m : AttrMap := []
  let m : AttrMap := m.set "internal" (.int (uint32ToInt v.TargetPort))
  let m : AttrMap :=
    if v.PublishedPort > 0 then m.set "external" (.uint32 v.PublishedPort) else m
  let m : AttrMap := m.set "publish_mode" (.named "swarm.PortConfigPublishMode" v.PublishMode)
  let m : AttrMap := m.set "protocol" (.named "swarm.PortConfigProtocol" v.Protocol)
  m

/-- `flattenServicePorts` of `docker/structure.go`. -/
def flattenServicePorts (inp : Slice PortConfig) : List Value :=
  if inp.isNil || inp.len == 0 then
    []
  else
    inp.elems.map (fun v => .map (flattenServicePortsEntry v))

/-- `shortDur` of `docker/structure.go`. -/
def shortDur (d : Int) : String :=
  let s := durationString d
  let s := if stringsHasSuffix s "m0s" then dropLastTwo s else s
  let s := if stringsHasSuffix s "h0m" then dropLastTwo s else s
  s

/-- `newStringSet` of `docker/structure.go`. -/
def newStringSet (f : schema.SchemaSetFunc) (inp : Slice String) : Except Panic Value :=
  let out : List Value := inp.elems.map (fun v => .str v)
  schema.NewSet f out

/-- `flattenServiceUpdateOrRollbackConfig` of `docker/structure.go`. -/
def flattenServiceUpdateOrRollbackConfig (inp : Option UpdateConfig) : List Value :=
  let out : List Value := []
  match inp with
  | none => out
  | some c =>
    let m : AttrMap := []
    let m : AttrMap := m.set "parallelism" (.uint64 c.Parallelism)
    let m : AttrMap := m.set "delay" (.str (shortDur c.Delay))
    let m : AttrMap := m.set "failure_action" (.str c.FailureAction)
    let m : AttrMap := m.set "monitor" (.str (shortDur c.Monitor))
    let m : AttrMap := m.set "max_failure_ratio" (.str (formatFloat c.MaxFailureRatio))
    let m : AttrMap := m.set "order" (.str c.Order)
    out ++ [.map m]

/-- The body of the loop of `flattenPlacementPrefs`, for one preference `v`:
`v.Spread.SpreadDescriptor` panics when `v.Spread` is nil. -/
def flattenPlacementPrefsEntry (v : PlacementPreference) : Except Panic Value :=
  match v.Spread with
  | some sp => .ok (.str sp.SpreadDescriptor)
  | none => .error .nilPointerDereference

/-- `flattenPlacementPrefs` of `docker/structure.go`; `hashcodeString` is the
hash code of a string behind `schema.HashString`. -/
def flattenPlacementPrefs (hashcodeString : String → Int) (inp : Slice PlacementPreference) :
    Except Panic Value :=
  if inp.isNil || inp.len == 0 then
    schema.NewSet (schema.HashString hashcodeString) []
  else do
    let out ← inp.elems.mapM flattenPlacementPrefsEntry
    schema.NewSet (schema.HashString hashcodeString) out

/-- The body of the loop of `flattenPlacementPlatforms`, for one platform. -/
def flattenPlacementPlatformsEntry (v : Platform) : AttrMap :=
  let m : AttrMap := []
  let m : AttrMap := m.set "architecture" (.str v.Architecture)
  let m : AttrMap := m.set "os" (.str v.OS)
  m

/-- `flattenPlacementPlatforms` of `docker/structure.go`: the elements given to
the set are maps, and the hash function is `schema.HashString`. -/
def flattenPlacementPlatforms (hashcodeString : String → Int) (inp : Slice Platform) :
    Except Panic Value :=
  if inp.isNil || inp.len == 0 then
    schema.NewSet (schema.HashString hashcodeString) []
  else
    let out : List Value := inp.elems.map (fun v => .map (flattenPlacementPlatformsEntry v))
    schema.NewSet (schema.HashString hashcodeString) out

/-- `flattenServicePlacement` of `docker/structure.go`. -/
def flattenServicePlacement (hashcodeString : String → Int) (inp : Option Placement) :
    Except Panic (List Value) :=
  match inp with
  | none => .ok []
  | some p => do
    let m : AttrMap := []
    let m : AttrMap ←
      if p.Constraints.len > 0 then do
        let s ← newStringSet (schema.HashString hashcodeString) p.Constraints
        pure (m.set "constraints" s)
      else pure m
    let m : AttrMap ←
      if p.Preferences.len > 0 then do
        let s ← flattenPlacementPrefs hashcodeString p.Preferences
        pure (m.set "prefs" s)
      else pure m
    let m : AttrMap ←
      if p.Platforms.len > 0 then do
        let s ← flattenPlacementPlatforms hashcodeString p.Platforms
        pure (m.set "platforms" s)
      else pure m
    pure [.map m]

/-- `flattenServiceLogging` of `docker/structure.go`. -/
def flattenServiceLogging (inp : Option Driver) : List Value :=
  match inp with
  | none => []
  | some d =>
    let m : AttrMap := []
    let m : AttrMap := m.set "driver_name" (.str d.Name)
    let m : AttrMap := if d.Options.len > 0 then m.set "options" (.stringMap d.Options) else m
    [.map m]

/-- `flattenServiceHealthcheck` of `docker/structure.go`. -/
def flattenServiceHealthcheck (inp : Option HealthConfig) : List Value :=
  match inp with
  | none => []
  | some h =>
    let m : AttrMap := []
    let m : AttrMap := if h.Test.len > 0 then m.set "test" (.strings h.Test) else m
    let m : AttrMap := m.set "interval" (.str (shortDur h.Interval))
    let m : AttrMap := m.set "timeout" (.str (shortDur h.Timeout))
    let m : AttrMap := m.set "start_period" (.str (shortDur h.StartPeriod))
    let m : AttrMap := m.set "retries" (.int h.Retries)
    [.map m]

/-- `flattenServiceDNSConfig` of `docker/structure.go`. -/
def flattenServiceDNSConfig (inp : Option DNSConfig) : List Value :=
  match inp with
  | none => []
  | some c =>
    let m : AttrMap := []
    let m : AttrMap :=
      if c.Nameservers.len > 0 then m.set "nameservers" (.strings c.Nameservers) else m
    let m : AttrMap := if c.Search.len > 0 then m.set "search" (.strings c.Search) else m
    let m : AttrMap := if c.Options.len > 0 then m.set "options" (.strings c.Options) else m
    [.map m]

/-! ## Lemmas on maps, strings and loops -/

theorem AttrMap.get_nil (k : String) : AttrMap.get [] k = none := rfl

theorem AttrMap.get_set (m : AttrMap) (k : String) (v : Value) (k' : String) :
    (m.set k v).get k' = if k = k' then some v else m.get k' := by
  induction m with
  | nil => simp [AttrMap.set, AttrMap.get]
  | cons p rest ih =>
    obtain ⟨a, b⟩ := p
    by_cases hak : a = k
    · subst hak
      by_cases hk : a = k' <;> simp [AttrMap.set, AttrMap.get, hk]
    · by_cases hk : a = k'
      · subst hk
        have hne : ¬ k = a := fun h => hak h.symm
        simp [AttrMap.set, AttrMap.get, hak, hne]
      · simp [AttrMap.set, AttrMap.get, hak, hk, ih]

theorem utf8ByteSize_pos_iff (s : String) : 0 < s.utf8ByteSize ↔ s ≠ "" := by
  obtain ⟨cs⟩ := s
  cases cs with
  | nil => simp [String.utf8ByteSize, String.utf8ByteSize.go]
  | cons c cs =>
    have hc := Char.utf8Size_pos c
    have hne : (String.mk (c :: cs)) ≠ "" := by
      intro h
      have := congrArg String.data h
      simp at this
    simp only [String.utf8ByteSize, String.utf8ByteSize.go, ne_eq, hne, not_false_eq_true,
      iff_true]
    omega

theorem splitChars_of_not_mem (sep : Char) (cs : List Char) (h : sep ∉ cs) :
    splitChars sep cs = [cs] := by
  induction cs with
  | nil => rfl
  | cons c cs ih =>
    have hc : ¬ c = sep := fun e => h (by simp [e])
    have hcs : sep ∉ cs := fun e => h (by simp [e])
    simp [splitChars, hc, ih hcs]

theorem Slice.ofList_cons_not_empty {α : Type} (x : α) (xs : List α) :
    ((Slice.ofList (x :: xs)).isNil || (Slice.ofList (x :: xs)).len == 0) = false := by
  simp [Slice.isNil, Slice.len, Slice.elems]

theorem splitChars_ne_nil (sep : Char) (cs : List Char) : splitChars sep cs ≠ [] := by
  cases cs with
  | nil => simp [splitChars]
  | cons c cs =>
    by_cases hc : c = sep
    · simp [splitChars, hc]
    · simp only [splitChars, hc, if_false]
      split <;> simp

/-- A loop over a list panics with `e` when its body panics with `e` on some
element and can raise no other panic. -/
theorem mapM_error_of_mem {α β : Type} (f : α → Except Panic β) (e : Panic) (xs : List α)
    (hall : ∀ x, (∃ y, f x = .ok y) ∨ f x = .error e) (hex : ∃ x ∈ xs, f x = .error e) :
    xs.mapM f = .error e := by
  induction xs with
  | nil => obtain ⟨x, hx, _⟩ := hex; simp at hx
  | cons a as ih =>
    rw [List.mapM_cons]
    rcases hall a with ⟨y, hy⟩ | herr
    · obtain ⟨x, hx, hfx⟩ := hex
      have hmem : x ∈ as := by
        rcases List.mem_cons.mp hx with rfl | hmem
        · rw [hy] at hfx; cases hfx
        · exact hmem
      rw [hy, ih ⟨x, hmem, hfx⟩]
      rfl
    · rw [herr]
      rfl

theorem flattenServiceHostsEntry_ok_or_panic (v : String) :
    (∃ m, flattenServiceHostsEntry v = .ok m) ∨
      flattenServiceHostsEntry v = .error (.indexOutOfRange 1 1) := by
  rcases h : splitChars ':' v.data with _ | ⟨p, _ | ⟨q, r⟩⟩
  · exact absurd h (splitChars_ne_nil ':' v.data)
  · right
    simp [flattenServiceHostsEntry, stringsSplit, h, index, bind, Except.bind]
  · left
    simp [flattenServiceHostsEntry, stringsSplit, h, index, bind, Except.bind, pure,
      Except.pure]

theorem flattenServiceHostsEntry_panics (v : String) (h : ':' ∉ v.data) :
    flattenServiceHostsEntry v = .error (.indexOutOfRange 1 1) := by
  simp [flattenServiceHostsEntry, stringsSplit, splitChars_of_not_mem ':' v.data h, index,
    bind, Except.bind]

/-- Adding strings to a set with `schema.HashString` never panics. -/
theorem foldlM_add_strings_ok (hashcodeString : String → Int) (xs : List String) (m : AttrMap) :
    ∃ m', (xs.map (fun v => Value.str v)).foldlM
      (schema.add (schema.HashString hashcodeString)) m = .ok m' := by
  induction xs generalizing m with
  | nil => exact ⟨m, rfl⟩
  | cons x xs ih =>
    simp only [List.map_cons, List.foldlM_cons]
    have hadd : ∃ m1, schema.add (schema.HashString hashcodeString) m (.str x) = .ok m1 := by
      simp only [schema.add, schema.hash, schema.HashString, bind, Except.bind, pure,
        Except.pure]
      split <;> split <;> exact ⟨_, rfl⟩
    obtain ⟨m1, hm1⟩ := hadd
    obtain ⟨m', hm'⟩ := ih m1
    exact ⟨m', by simp [hm1, hm', bind, Except.bind]⟩

theorem newStringSet_ok (hashcodeString : String → Int) (xs : Slice String) :
    ∃ s, newStringSet (schema.HashString hashcodeString) xs = .ok s := by
  obtain ⟨m', hm'⟩ := foldlM_add_strings_ok hashcodeString xs.elems []
  exact ⟨.set m', by simp [newStringSet, schema.NewSet, hm', bind, Except.bind, pure,
    Except.pure]⟩

theorem flattenServiceMounts_ofList (xs : List Mount) :
    flattenServiceMounts (.ofList xs) = xs.map (fun v => .map (flattenServiceMountsEntry v)) := by
  cases xs with
  | nil => rfl
  | cons x xs => simp [flattenServiceMounts, Slice.ofList_cons_not_empty, Slice.elems]

theorem flattenServicePorts_ofList (xs : List PortConfig) :
    flattenServicePorts (.ofList xs) = xs.map (fun v => .map (flattenServicePortsEntry v)) := by
  cases xs with
  | nil => rfl
  | cons x xs => simp [flattenServicePorts, Slice.ofList_cons_not_empty, Slice.elems]

/-- The text of some durations, as `time.Duration.String` prints them. -/
theorem durationString_samples :
    durationString 0 = "0s" ∧
    durationString 999 = "999ns" ∧
    durationString 1500 = "1.5µs" ∧
    durationString 1500000 = "1.5ms" ∧
    durationString (-90000000000) = "-1m30s" ∧
    durationString 3600000000000 = "1h0m0s" ∧
    durationString (72 * 3600000000000 + 3 * 60000000000 + 500000000) = "72h3m0.5s" ∧
    durationString (2 ^ 63 - 1) = "2562047h47m16.854775807s" ∧
    durationString (-(2 ^ 63)) = "-2562047h47m16.854775808s" :=
  ⟨rfl, rfl, rfl, rfl, rfl, rfl, rfl, rfl, rfl⟩

/-- The text of some durations after `shortDur`. -/
theorem shortDur_samples :
    shortDur 3600000000000 = "1h" ∧
    shortDur 5400000000000 = "1h30m" ∧
    shortDur 300000000000 = "5m" ∧
    shortDur 5000000000 = "5s" ∧
    shortDur 0 = "0s" :=
  ⟨rfl, rfl, rfl, rfl, rfl⟩

/-- The text of some `float32` values: 0, 0.1, 0.5, 0.25, 0.75, -1, a NaN and
10000. -/
theorem formatFloat_samples :
    formatFloat ⟨0⟩ = "0.0" ∧
    formatFloat ⟨0x3DCCCCCD⟩ = "0.1" ∧
    formatFloat ⟨0x3F000000⟩ = "0.5" ∧
    formatFloat ⟨0x3E800000⟩ = "0.2" ∧
    formatFloat ⟨0x3F400000⟩ = "0.8" ∧
    formatFloat ⟨0xBF800000⟩ = "-1.0" ∧
    formatFloat ⟨0x7FC00000⟩ = "NaN" ∧
    formatFloat ⟨0x461C4000⟩ = "10000.0" :=
  ⟨rfl, rfl, rfl, rfl, rfl, rfl, rfl, rfl⟩

/-- The flattened host list of one well-formed entry. -/
theorem flattenServiceHosts_sample :
    flattenServiceHosts (.ofList ["a:1.2.3.4"]) =
      .ok [.map [("host", .str "a"), ("ip", .str "1.2.3.4")]] :=
  rfl

/-! ## Theorems -/

/-- C1 (fails on the code): `flattenServiceHosts` panics on every list that has
an entry without `:`. `strings.Split` gives one piece for such an entry, and
`split[1]` is out of range. -/
theorem flattenServiceHosts_panics_without_colon (xs : List String)
    (h : ∃ v ∈ xs, ':' ∉ v.data) :
    flattenServiceHosts (.ofList xs) = .error (.indexOutOfRange 1 1) := by
  cases xs with
  | nil => obtain ⟨v, hv, _⟩ := h; simp at hv
  | cons x xs =>
    simp only [flattenServiceHosts, Slice.ofList_cons_not_empty, Slice.elems]
    apply mapM_error_of_mem
    · intro v
      rcases flattenServiceHostsEntry_ok_or_panic v with ⟨m, hm⟩ | herr
      · exact Or.inl ⟨.map m, by simp [hm, bind, Except.bind, pure, Except.pure]⟩
      · exact Or.inr (by simp [herr, bind, Except.bind])
    · obtain ⟨v, hv, hcolon⟩ := h
      exact ⟨v, hv, by simp [flattenServiceHostsEntry_panics v hcolon, bind, Except.bind]⟩

/-- Witness of C1: a host list whose second entry, `localhost`, has no `:`. -/
theorem flattenServiceHosts_panics_without_colon_witness :
    flattenServiceHosts (.ofList ["db:10.0.0.1", "localhost"])
      = .error (.indexOutOfRange 1 1) :=
  flattenServiceHosts_panics_without_colon ["db:10.0.0.1", "localhost"]
    ⟨"localhost", by simp, by decide⟩

/-- C2 (fails on the code): on a non-empty list of platforms
`flattenPlacementPlatforms` panics, whatever the hash code of strings is: the
elements it gives to the set are maps, and `schema.HashString` asserts that its
argument is a string. So `flattenServicePlacement` returns no result for any
placement whose `Platforms` is non-empty. -/
theorem flattenPlacementPlatforms_panics_on_platforms (hashcodeString : String → Int)
    (p : Platform) (ps : List Platform) :
    flattenPlacementPlatforms hashcodeString (.ofList (p :: ps)) = .error .typeAssertion ∧
    (∀ (constraints : Slice String) (prefs : Slice PlacementPreference) (out : List Value),
      flattenServicePlacement hashcodeString (some ⟨constraints, prefs, .ofList (p :: ps)⟩)
        ≠ .ok out) ∧
    flattenServicePlacement hashcodeString (some ⟨.nil, .nil, .ofList (p :: ps)⟩)
      = .error .typeAssertion := by
  have hpl : flattenPlacementPlatforms hashcodeString (.ofList (p :: ps))
      = .error .typeAssertion := by
    simp only [flattenPlacementPlatforms, Slice.ofList_cons_not_empty, Slice.elems]
    simp [schema.NewSet, List.foldlM_cons, schema.add, schema.hash, schema.HashString,
      flattenPlacementPlatformsEntry, bind, Except.bind]
  refine ⟨hpl, ?_, ?_⟩
  · intro constraints prefs out
    have hlen : (Slice.ofList (p :: ps)).len > 0 := by simp [Slice.len, Slice.elems]
    simp only [flattenServicePlacement, hpl, hlen, if_true]
    by_cases hc : constraints.len > 0 <;> by_cases hp : prefs.len > 0 <;>
      simp only [hc, hp, if_true, if_false] <;>
      (try cases newStringSet (schema.HashString hashcodeString) constraints) <;>
      (try cases flattenPlacementPrefs hashcodeString prefs) <;>
      simp [bind, Except.bind, pure, Except.pure]
  · simp only [flattenServicePlacement, hpl]
    simp [Slice.len, Slice.elems, bind, Except.bind, pure, Except.pure]

/-- C3 (fails on the code): for a mount whose `TmpfsOptions` is set,
`tmpfs_size_bytes` is `SizeBytes`, but `tmpfs_mode` holds the method value
`Mode.Perm` itself, a function that was not called: it is no integer, and in
particular not the permission bits `Mode & 0o777`. -/
theorem flattenServiceMounts_tmpfs_mode_is_method_value (v : Mount) (t : TmpfsOptions) :
    ∃ m : AttrMap,
      flattenServiceMounts (.ofList [{ v with TmpfsOptions := some t }]) = [.map m] ∧
      m.get "tmpfs_size_bytes" = some (.int64 t.SizeBytes) ∧
      m.get "tmpfs_mode" = some (.permMethod t.Mode) ∧
      m.get "tmpfs_mode" ≠ some (.uint32 (t.Mode % 512)) ∧
      (∀ n : Int, m.get "tmpfs_mode" ≠ some (.int n)) := by
  have key : ∀ m : AttrMap, m.get "tmpfs_mode" = some (.permMethod t.Mode) →
      m.get "tmpfs_mode" ≠ some (.uint32 (t.Mode % 512)) ∧
      (∀ n : Int, m.get "tmpfs_mode" ≠ some (.int n)) := by
    intro m hm
    rw [hm]
    exact ⟨by simp, fun n => by simp⟩
  refine ⟨flattenServiceMountsEntry { v with TmpfsOptions := some t }, ?_, ?_, ?_, ?_⟩
  · simp [flattenServiceMounts, Slice.ofList_cons_not_empty, Slice.elems]
  · simp [flattenServiceMountsEntry, AttrMap.get_set]
  · simp [flattenServiceMountsEntry, AttrMap.get_set]
  · exact key _ (by simp [flattenServiceMountsEntry, AttrMap.get_set])

/-- C4: absent inputs give empty containers. The six list flatteners return a
list of length 0 for the nil slice and for the empty slice; the five flatteners
of a pointer return a list of length 0 for the nil pointer; and
`flattenPlacementPrefs` and `flattenPlacementPlatforms` return a set without
elements for the nil and for the empty slice, whatever the hash of strings. -/
theorem flatten_absent_input_empty_container (hashcodeString : String → Int) :
    (flattenServiceHosts .nil = .ok [] ∧ flattenServiceHosts (.ofList []) = .ok []) ∧
    (flattenServiceNetworks .nil = [] ∧ flattenServiceNetworks (.ofList []) = []) ∧
    (flattenServiceMounts .nil = [] ∧ flattenServiceMounts (.ofList []) = []) ∧
    (flattenServiceConfigs .nil = .ok [] ∧ flattenServiceConfigs (.ofList []) = .ok []) ∧
    (flattenServiceSecrets .nil = .ok [] ∧ flattenServiceSecrets (.ofList []) = .ok []) ∧
    (flattenServicePorts .nil = [] ∧ flattenServicePorts (.ofList []) = []) ∧
    (flattenServiceUpdateOrRollbackConfig none).length = 0 ∧
    flattenServicePlacement hashcodeString none = .ok [] ∧
    (flattenServiceLogging none).length = 0 ∧
    (flattenServiceHealthcheck none).length = 0 ∧
    (flattenServiceDNSConfig none).length = 0 ∧
    (flattenPlacementPrefs hashcodeString .nil = .ok (.set []) ∧
      flattenPlacementPrefs hashcodeString (.ofList []) = .ok (.set [])) ∧
    (flattenPlacementPlatforms hashcodeString .nil = .ok (.set []) ∧
      flattenPlacementPlatforms hashcodeString (.ofList []) = .ok (.set [])) := by
  refine ⟨⟨rfl, rfl⟩, ⟨rfl, rfl⟩, ⟨rfl, rfl⟩, ⟨rfl, rfl⟩, ⟨rfl, rfl⟩, ⟨rfl, rfl⟩, rfl, rfl,
    rfl, rfl, rfl, ⟨rfl, rfl⟩, ⟨rfl, rfl⟩⟩

/-- C5 (as stated, fails): for the nil pointer `flattenReplicated` does not
return a list without elements. -/
theorem flattenReplicated_nil_not_empty :
    ¬ (flattenReplicated none).length = 0 := by
  decide

/-- C5 (amended): for the nil pointer `flattenReplicated` returns a list of one
element, a map without entries. -/
theorem flattenReplicated_nil_singleton_empty_map :
    flattenReplicated none = [.map []] ∧ (flattenReplicated none).length = 1 :=
  ⟨rfl, rfl⟩

/-- C6 (as stated, fails): for a service mode with neither `Replicated` nor
`Global` the map of `flattenServiceMode` has the key `global`, with the value
`false`, so it is not true that the key is there only if `Global` is set. -/
theorem flattenServiceMode_global_key_when_unset :
    ∃ m : AttrMap, flattenServiceMode ⟨none, none⟩ = [.map m] ∧
      m.get "global" = some (.bool false) ∧
      ¬ ((m.get "global").isSome ↔ (ServiceMode.mk none none).Global.isSome) :=
  ⟨[("global", .bool false)], rfl, rfl, by decide⟩

/-- C6 (amended): the map of `flattenServiceMode` has the key `replicated` if and
only if `Replicated` is set, and always has the key `global`, whose value is
`true` if `Global` is set and `false` if it is not. -/
theorem flattenServiceMode_keys (sm : ServiceMode) :
    ∃ m : AttrMap, flattenServiceMode sm = [.map m] ∧
      ((m.get "replicated").isSome ↔ sm.Replicated.isSome) ∧
      m.get "global" = some (.bool sm.Global.isSome) := by
  obtain ⟨r, g⟩ := sm
  refine ⟨_, rfl, ?_, ?_⟩ <;> cases r <;> cases g <;> simp [AttrMap.get_set, AttrMap.get_nil]

/-- C7 (fails on the code): on every list that has a preference with a nil
`Spread`, `flattenPlacementPrefs` panics with a nil pointer dereference,
whatever the hash of strings, and so does `flattenServicePlacement` on every
placement with such preferences. -/
theorem flattenPlacementPrefs_panics_on_nil_spread (hashcodeString : String → Int)
    (pl : Placement) (h : ∃ p ∈ pl.Preferences.elems, p.Spread = none) :
    flattenPlacementPrefs hashcodeString pl.Preferences = .error .nilPointerDereference ∧
    flattenServicePlacement hashcodeString (some pl) = .error .nilPointerDereference := by
  obtain ⟨cs, prefs, plats⟩ := pl
  have hne : (prefs.isNil || prefs.len == 0) = false := by
    obtain ⟨p, hp, _⟩ := h
    cases prefs with
    | nil => simp [Slice.elems] at hp
    | ofList xs =>
      cases xs with
      | nil => simp [Slice.elems] at hp
      | cons x xs => exact Slice.ofList_cons_not_empty x xs
  have hmap : prefs.elems.mapM flattenPlacementPrefsEntry = .error .nilPointerDereference := by
    apply mapM_error_of_mem
    · intro v
      cases hv : v.Spread with
      | none => exact Or.inr (by simp [flattenPlacementPrefsEntry, hv])
      | some sp => exact Or.inl ⟨.str sp.SpreadDescriptor, by simp [flattenPlacementPrefsEntry, hv]⟩
    · obtain ⟨p, hp, hnil⟩ := h
      exact ⟨p, hp, by simp [flattenPlacementPrefsEntry, hnil]⟩
  have hpr : flattenPlacementPrefs hashcodeString prefs = .error .nilPointerDereference := by
    simp only [flattenPlacementPrefs, hne]
    rw [if_neg (by simp), hmap]
    rfl
  refine ⟨hpr, ?_⟩
  have hlen : prefs.len > 0 := by
    cases hz : prefs.len with
    | zero => simp [hz] at hne
    | succ n => exact Nat.succ_pos n
  obtain ⟨s, hs⟩ := newStringSet_ok hashcodeString cs
  simp only [flattenServicePlacement, hpr, hlen, if_true, hs]
  by_cases hc : cs.len > 0 <;> simp [hc, bind, Except.bind, pure, Except.pure]

/-- Witness of C7: a placement whose second preference has a nil `Spread`. -/
theorem flattenPlacementPrefs_panics_on_nil_spread_witness :
    flattenPlacementPrefs (fun _ => 0) (.ofList [⟨some ⟨"node.labels.zone"⟩⟩, ⟨none⟩])
      = .error .nilPointerDereference ∧
    flattenServicePlacement (fun _ => 0)
      (some ⟨.ofList ["node.role==worker"], .ofList [⟨some ⟨"node.labels.zone"⟩⟩, ⟨none⟩], .nil⟩)
      = .error .nilPointerDereference :=
  flattenPlacementPrefs_panics_on_nil_spread (fun _ => 0)
    ⟨.ofList ["node.role==worker"], .ofList [⟨some ⟨"node.labels.zone"⟩⟩, ⟨none⟩], .nil⟩
    ⟨⟨none⟩, by simp [Slice.elems], rfl⟩

/-- C8: for a non-nil DNS config `flattenServiceDNSConfig` returns a list of
one map; the map has `nameservers`, `search` and `options` exactly when the list
of that name is non-empty, the value is then the input list itself, and the map
has no other key. -/
theorem flattenServiceDNSConfig_keys (c : DNSConfig) :
    ∃ m : AttrMap, flattenServiceDNSConfig (some c) = [.map m] ∧
      m.get "nameservers"
        = (if 0 < c.Nameservers.len then some (.strings c.Nameservers) else none) ∧
      m.get "search" = (if 0 < c.Search.len then some (.strings c.Search) else none) ∧
      m.get "options" = (if 0 < c.Options.len then some (.strings c.Options) else none) ∧
      ∀ k : String, k ∉ ["nameservers", "search", "options"] → m.get k = none := by
  refine ⟨_, rfl, ?_, ?_, ?_, ?_⟩
  · by_cases h1 : 0 < c.Nameservers.len <;> by_cases h2 : 0 < c.Search.len <;>
      by_cases h3 : 0 < c.Options.len <;> simp [h1, h2, h3, AttrMap.get_set, AttrMap.get_nil]
  · by_cases h1 : 0 < c.Nameservers.len <;> by_cases h2 : 0 < c.Search.len <;>
      by_cases h3 : 0 < c.Options.len <;> simp [h1, h2, h3, AttrMap.get_set, AttrMap.get_nil]
  · by_cases h1 : 0 < c.Nameservers.len <;> by_cases h2 : 0 < c.Search.len <;>
      by_cases h3 : 0 < c.Options.len <;> simp [h1, h2, h3, AttrMap.get_set, AttrMap.get_nil]
  · intro k hk
    simp only [List.mem_cons, List.mem_singleton, List.not_mem_nil, or_false, not_or] at hk
    obtain ⟨k1, k2, k3⟩ := hk
    have e1 : ¬ "nameservers" = k := fun e => k1 e.symm
    have e2 : ¬ "search" = k := fun e => k2 e.symm
    have e3 : ¬ "options" = k := fun e => k3 e.symm
    by_cases h1 : 0 < c.Nameservers.len <;> by_cases h2 : 0 < c.Search.len <;>
      by_cases h3 : 0 < c.Options.len <;>
      simp [h1, h2, h3, e1, e2, e3, AttrMap.get_set, AttrMap.get_nil]

/-- C9: the map flattened from the mount `v` at index `i` of a list always has
`target`, `source`, `type` and `read_only` equal to the fields of `v`; it has
`consistency` iff `Consistency` is not the empty string, `bind_propagation` iff
`BindOptions` is set, `volume_no_copy` and `volume_labels` iff `VolumeOptions` is
set, `volume_driver_name` and `volume_driver_options` iff `VolumeOptions` and its
`DriverConfig` are both set; each key that is there holds the input value. -/
theorem flattenServiceMounts_entry (xs : List Mount) (i : Nat) (v : Mount)
    (h : xs[i]? = some v) :
    ∃ m : AttrMap, (flattenServiceMounts (.ofList xs))[i]? = some (.map m) ∧
      m.get "target" = some (.str v.Target) ∧
      m.get "source" = some (.str v.Source) ∧
      m.get "type" = some (.named "mount.Type" v.Typ) ∧
      m.get "read_only" = some (.bool v.ReadOnly) ∧
      m.get "consistency"
        = (if v.Consistency = "" then none
           else some (.named "mount.Consistency" v.Consistency)) ∧
      m.get "bind_propagation"
        = v.BindOptions.map (fun b => .named "mount.Propagation" b.Propagation) ∧
      m.get "volume_no_copy" = v.VolumeOptions.map (fun vo => .bool vo.NoCopy) ∧
      m.get "volume_labels" = v.VolumeOptions.map (fun vo => .stringMap vo.Labels) ∧
      m.get "volume_driver_name"
        = (v.VolumeOptions.bind (fun vo => vo.DriverConfig)).map (fun dc => .str dc.Name) ∧
      m.get "volume_driver_options"
        = (v.VolumeOptions.bind (fun vo => vo.DriverConfig)).map
            (fun dc => .stringMap dc.Options) := by
  refine ⟨flattenServiceMountsEntry v, ?_, ?_⟩
  · simp [flattenServiceMounts_ofList, List.getElem?_map, h]
  · obtain ⟨ty, src, tgt, ro, cons, bo, vo, tm⟩ := v
    have hc := utf8ByteSize_pos_iff cons
    by_cases hcons : cons = ""
    · subst hcons
      have hz : ¬ 0 < ("" : String).utf8ByteSize := fun hp => (hc.mp hp) rfl
      cases bo <;> cases tm <;> rcases vo with _ | ⟨nc, lb, _ | dc⟩ <;>
        simp [flattenServiceMountsEntry, AttrMap.get_set, AttrMap.get_nil, hz]
    · have hp : 0 < cons.utf8ByteSize := hc.mpr hcons
      cases bo <;> cases tm <;> rcases vo with _ | ⟨nc, lb, _ | dc⟩ <;>
        simp [flattenServiceMountsEntry, AttrMap.get_set, AttrMap.get_nil, hcons, hp]

/-- Witness of C9: a bind mount at index 0 of a list of one. -/
theorem flattenServiceMounts_entry_witness :
    ∃ m : AttrMap,
      (flattenServiceMounts
        (.ofList [⟨"bind", "/src", "/dst", true, "", some ⟨"rprivate"⟩, none, none⟩]))[0]?
        = some (.map m) ∧
      m.get "target" = some (.str "/dst") ∧
      m.get "consistency" = none ∧
      m.get "bind_propagation" = some (.named "mount.Propagation" "rprivate") ∧
      m.get "volume_no_copy" = none := by
  obtain ⟨m, h0, h1, _, _, _, h5, h6, h7, _⟩ :=
    flattenServiceMounts_entry
      [⟨"bind", "/src", "/dst", true, "", some ⟨"rprivate"⟩, none, none⟩] 0
      ⟨"bind", "/src", "/dst", true, "", some ⟨"rprivate"⟩, none, none⟩ rfl
  exact ⟨m, h0, h1, by simpa using h5, by simpa using h6, by simpa using h7⟩

/-- C10: the map flattened from the port config `v` at index `i` of a list has
`internal` equal to `TargetPort`, `publish_mode` equal to `PublishMode` and
`protocol` equal to `Protocol`; it has `external` iff `PublishedPort` is not
zero, and `external` is then `PublishedPort`. -/
theorem flattenServicePorts_entry (xs : List PortConfig) (i : Nat) (v : PortConfig)
    (h : xs[i]? = some v) :
    ∃ m : AttrMap, (flattenServicePorts (.ofList xs))[i]? = some (.map m) ∧
      m.get "internal" = some (.int (v.TargetPort : Int)) ∧
      m.get "publish_mode" = some (.named "swarm.PortConfigPublishMode" v.PublishMode) ∧
      m.get "protocol" = some (.named "swarm.PortConfigProtocol" v.Protocol) ∧
      m.get "external"
        = (if v.PublishedPort = 0 then none else some (.uint32 v.PublishedPort)) := by
  refine ⟨flattenServicePortsEntry v, ?_, ?_⟩
  · simp [flattenServicePorts_ofList, List.getElem?_map, h]
  · by_cases hz : v.PublishedPort = 0
    · simp [flattenServicePortsEntry, AttrMap.get_set, AttrMap.get_nil, hz, uint32ToInt]
    · have hp : v.PublishedPort > 0 := Nat.pos_of_ne_zero hz
      simp [flattenServicePortsEntry, AttrMap.get_set, AttrMap.get_nil, hz, hp, uint32ToInt]

/-- Witness of C10: a published port at index 0 of a list of one. -/
theorem flattenServicePorts_entry_witness :
    ∃ m : AttrMap,
      (flattenServicePorts (.ofList [⟨"tcp", 80, 8080, "ingress"⟩]))[0]? = some (.map m) ∧
      m.get "internal" = some (.int 80) ∧
      m.get "external" = some (.uint32 8080) := by
  obtain ⟨m, h0, h1, _, _, h4⟩ :=
    flattenServicePorts_entry [⟨"tcp", 80, 8080, "ingress"⟩] 0 ⟨"tcp", 80, 8080, "ingress"⟩ rfl
  exact ⟨m, h0, by simpa using h1, by simpa using h4⟩

/-! ## Configs, secrets, health check and update config -/

/-- A loop over a list whose body returns on every element returns the list of
the results, in order. -/
theorem mapM_ok_of_forall {α β : Type} (f : α → Except Panic β) (g : α → β) (xs : List α)
    (h : ∀ x ∈ xs, f x = .ok (g x)) : xs.mapM f = .ok (xs.map g) := by
  induction xs with
  | nil => rfl
  | cons a as ih =>
    rw [List.mapM_cons, h a (by simp), ih (fun x hx => h x (by simp [hx]))]
    rfl

/-- The result of a loop that returns has the length of the input, and its
element at `i` is the result of the body on the input element at `i`. -/
theorem mapM_ok_elim {α β : Type} (f : α → Except Panic β) (xs : List α) (out : List β)
    (h : xs.mapM f = .ok out) :
    out.length = xs.length ∧
      ∀ (i : Nat) (v : α), xs[i]? = some v → ∃ y, f v = .ok y ∧ out[i]? = some y := by
  induction xs generalizing out with
  | nil =>
    have : out = [] := by
      have h' : (Except.ok [] : Except Panic (List β)) = .ok out := h
      cases h'
      rfl
    subst this
    exact ⟨rfl, fun i v hv => by simp at hv⟩
  | cons a as ih =>
    rw [List.mapM_cons] at h
    cases hfa : f a with
    | error e => rw [hfa] at h; cases h
    | ok y =>
      cases has : as.mapM f with
      | error e => rw [hfa, has] at h; cases h
      | ok ys =>
        rw [hfa, has] at h
        have hout : out = y :: ys := by
          have h' : (Except.ok (y :: ys) : Except Panic (List β)) = .ok out := h
          cases h'
          rfl
        subst hout
        obtain ⟨hlen, hget⟩ := ih ys has
        refine ⟨by simp [hlen], ?_⟩
        intro i v hv
        cases i with
        | zero =>
          simp only [List.getElem?_cons_zero, Option.some.injEq] at hv
          subst hv
          exact ⟨y, hfa, by simp⟩
        | succ n =>
          simp only [List.getElem?_cons_succ] at hv
          obtain ⟨z, hz, hzn⟩ := hget n v hv
          exact ⟨z, hz, by simpa using hzn⟩

theorem flattenServiceConfigsEntry_some (c : ConfigReference) :
    ∃ m : AttrMap, flattenServiceConfigsEntry (some c) = .ok m ∧
      m.get "config_id" = some (.str c.ConfigID) ∧
      m.get "config_name" = (if c.ConfigName = "" then none else some (.str c.ConfigName)) ∧
      m.get "file_name" = c.File.map (fun f => .str f.Name) := by
  refine ⟨_, rfl, ?_⟩
  obtain ⟨file, id, name⟩ := c
  have hc := utf8ByteSize_pos_iff name
  by_cases hname : name = ""
  · subst hname
    have hz : ¬ 0 < ("" : String).utf8ByteSize := fun hp => (hc.mp hp) rfl
    cases file <;> simp [AttrMap.get_set, AttrMap.get_nil, hz]
  · have hp : 0 < name.utf8ByteSize := hc.mpr hname
    cases file <;> simp [AttrMap.get_set, AttrMap.get_nil, hname, hp]

theorem flattenServiceSecretsEntry_some (c : SecretReference) :
    ∃ m : AttrMap, flattenServiceSecretsEntry (some c) = .ok m ∧
      m.get "secret_id" = some (.str c.SecretID) ∧
      m.get "secret_name" = (if c.SecretName = "" then none else some (.str c.SecretName)) ∧
      m.get "file_name" = c.File.map (fun f => .str f.Name) := by
  refine ⟨_, rfl, ?_⟩
  obtain ⟨file, id, name⟩ := c
  have hc := utf8ByteSize_pos_iff name
  by_cases hname : name = ""
  · subst hname
    have hz : ¬ 0 < ("" : String).utf8ByteSize := fun hp => (hc.mp hp) rfl
    cases file <;> simp [AttrMap.get_set, AttrMap.get_nil, hz]
  · have hp : 0 < name.utf8ByteSize := hc.mpr hname
    cases file <;> simp [AttrMap.get_set, AttrMap.get_nil, hname, hp]

theorem flattenServiceConfigs_ofList (xs : List (Option ConfigReference)) :
    flattenServiceConfigs (.ofList xs)
      = xs.mapM (fun v => do pure (.map (← flattenServiceConfigsEntry v))) := by
  cases xs with
  | nil => rfl
  | cons x xs => simp only [flattenServiceConfigs, Slice.ofList_cons_not_empty, Slice.elems]; rfl

theorem flattenServiceSecrets_ofList (xs : List (Option SecretReference)) :
    flattenServiceSecrets (.ofList xs)
      = xs.mapM (fun v => do pure (.map (← flattenServiceSecretsEntry v))) := by
  cases xs with
  | nil => rfl
  | cons x xs => simp only [flattenServiceSecrets, Slice.ofList_cons_not_empty, Slice.elems]; rfl

/-- C11: on a list of non-nil config references `flattenServiceConfigs` returns,
and the map at index `i` has `config_id` equal to `ConfigID`, has `config_name`
iff `ConfigName` is not empty (then equal to it) and has `file_name` iff `File`
is set (then equal to `File.Name`); `flattenServiceSecrets` does the same for
secret references, with `secret_id`, `secret_name` and `file_name`. -/
theorem flattenServiceConfigs_and_Secrets_entry
    (cs : List ConfigReference) (i : Nat) (c : ConfigReference) (hc : cs[i]? = some c)
    (ss : List SecretReference) (j : Nat) (s : SecretReference) (hs : ss[j]? = some s) :
    (∃ (out : List Value) (m : AttrMap),
      flattenServiceConfigs (.ofList (cs.map some)) = .ok out ∧
      out.length = cs.length ∧ out[i]? = some (.map m) ∧
      m.get "config_id" = some (.str c.ConfigID) ∧
      m.get "config_name" = (if c.ConfigName = "" then none else some (.str c.ConfigName)) ∧
      m.get "file_name" = c.File.map (fun f => .str f.Name)) ∧
    (∃ (out : List Value) (m : AttrMap),
      flattenServiceSecrets (.ofList (ss.map some)) = .ok out ∧
      out.length = ss.length ∧ out[j]? = some (.map m) ∧
      m.get "secret_id" = some (.str s.SecretID) ∧
      m.get "secret_name" = (if s.SecretName = "" then none else some (.str s.SecretName)) ∧
      m.get "file_name" = s.File.map (fun f => .str f.Name)) := by
  constructor
  · let g : Option ConfigReference → Value := fun v =>
      match flattenServiceConfigsEntry v with
      | .ok m => .map m
      | .error _ => .map []
    have hall : ∀ x ∈ cs.map some,
        (fun v => do pure (.map (← flattenServiceConfigsEntry v)) :
          Option ConfigReference → Except Panic Value) x = .ok (g x) := by
      intro x hx
      obtain ⟨c', _, rfl⟩ := List.mem_map.mp hx
      rfl
    obtain ⟨m, hm, h1, h2, h3⟩ := flattenServiceConfigsEntry_some c
    refine ⟨(cs.map some).map g, m, ?_, by simp, ?_, h1, h2, h3⟩
    · rw [flattenServiceConfigs_ofList]
      exact mapM_ok_of_forall _ g _ hall
    · simp [List.getElem?_map, hc, g, hm]
  · let g : Option SecretReference → Value := fun v =>
      match flattenServiceSecretsEntry v with
      | .ok m => .map m
      | .error _ => .map []
    have hall : ∀ x ∈ ss.map some,
        (fun v => do pure (.map (← flattenServiceSecretsEntry v)) :
          Option SecretReference → Except Panic Value) x = .ok (g x) := by
      intro x hx
      obtain ⟨c', _, rfl⟩ := List.mem_map.mp hx
      rfl
    obtain ⟨m, hm, h1, h2, h3⟩ := flattenServiceSecretsEntry_some s
    refine ⟨(ss.map some).map g, m, ?_, by simp, ?_, h1, h2, h3⟩
    · rw [flattenServiceSecrets_ofList]
      exact mapM_ok_of_forall _ g _ hall
    · simp [List.getElem?_map, hs, g, hm]

/-- Witness of C11: one config reference with a name and a file, one secret
reference with neither. -/
theorem flattenServiceConfigs_and_Secrets_entry_witness :
    (∃ (out : List Value) (m : AttrMap),
      flattenServiceConfigs (.ofList [some ⟨some ⟨"app.conf"⟩, "id1", "cfg"⟩]) = .ok out ∧
      out[0]? = some (.map m) ∧
      m.get "config_id" = some (.str "id1") ∧
      m.get "config_name" = some (.str "cfg") ∧
      m.get "file_name" = some (.str "app.conf")) ∧
    (∃ (out : List Value) (m : AttrMap),
      flattenServiceSecrets (.ofList [some ⟨none, "id2", ""⟩]) = .ok out ∧
      out[0]? = some (.map m) ∧
      m.get "secret_id" = some (.str "id2") ∧
      m.get "secret_name" = none ∧
      m.get "file_name" = none) := by
  obtain ⟨⟨o1, m1, a1, _, a3, a4, a5, a6⟩, ⟨o2, m2, b1, _, b3, b4, b5, b6⟩⟩ :=
    flattenServiceConfigs_and_Secrets_entry
      [⟨some ⟨"app.conf"⟩, "id1", "cfg"⟩] 0 ⟨some ⟨"app.conf"⟩, "id1", "cfg"⟩ rfl
      [⟨none, "id2", ""⟩] 0 ⟨none, "id2", ""⟩ rfl
  exact ⟨⟨o1, m1, a1, a3, a4, by simpa using a5, by simpa using a6⟩,
    ⟨o2, m2, b1, b3, b4, by simpa using b5, by simpa using b6⟩⟩

/-- C12: for a non-nil health check config `flattenServiceHealthcheck` returns a
list of one map, which has `test` iff `Test` is non-empty (then equal to
`Test`) and always has `interval`, `timeout` and `start_period` equal to
`shortDur` of the three durations and `retries` equal to `Retries`, whatever
their values, zero included. -/
theorem flattenServiceHealthcheck_keys (h : HealthConfig) :
    ∃ m : AttrMap, flattenServiceHealthcheck (some h) = [.map m] ∧
      m.get "test" = (if 0 < h.Test.len then some (.strings h.Test) else none) ∧
      m.get "interval" = some (.str (shortDur h.Interval)) ∧
      m.get "timeout" = some (.str (shortDur h.Timeout)) ∧
      m.get "start_period" = some (.str (shortDur h.StartPeriod)) ∧
      m.get "retries" = some (.int h.Retries) := by
  refine ⟨_, rfl, ?_⟩
  by_cases ht : 0 < h.Test.len <;> simp [ht, AttrMap.get_set, AttrMap.get_nil]

/-- C13: for a non-nil update or rollback config
`flattenServiceUpdateOrRollbackConfig` returns a list of one map, whose keys are
exactly `parallelism`, `delay`, `failure_action`, `monitor`, `max_failure_ratio`
and `order`; `parallelism`, `failure_action` and `order` hold the input fields,
`delay` and `monitor` hold `shortDur` of `Delay` and of `Monitor`. -/
theorem flattenServiceUpdateOrRollbackConfig_keys (c : UpdateConfig) :
    ∃ m : AttrMap, flattenServiceUpdateOrRollbackConfig (some c) = [.map m] ∧
      m.get "parallelism" = some (.uint64 c.Parallelism) ∧
      m.get "delay" = some (.str (shortDur c.Delay)) ∧
      m.get "failure_action" = some (.str c.FailureAction) ∧
      m.get "monitor" = some (.str (shortDur c.Monitor)) ∧
      (m.get "max_failure_ratio").isSome ∧
      m.get "order" = some (.str c.Order) ∧
      (∀ k : String, (m.get k).isSome ↔
        k ∈ ["parallelism", "delay", "failure_action", "monitor", "max_failure_ratio",
          "order"]) := by
  refine ⟨_, rfl, ?_, ?_, ?_, ?_, ?_, ?_, ?_⟩
  · simp [AttrMap.get_set, AttrMap.get_nil]
  · simp [AttrMap.get_set, AttrMap.get_nil]
  · simp [AttrMap.get_set, AttrMap.get_nil]
  · simp [AttrMap.get_set, AttrMap.get_nil]
  · simp [AttrMap.get_set, AttrMap.get_nil]
  · simp [AttrMap.get_set, AttrMap.get_nil]
  · intro k
    simp only [AttrMap.get_set, AttrMap.get_nil, List.mem_cons, List.mem_singleton,
      List.not_mem_nil, or_false]
    by_cases h1 : "order" = k
    · simp [h1.symm]
    by_cases h2 : "max_failure_ratio" = k
    · simp [h2.symm]
    by_cases h3 : "monitor" = k
    · simp [h3.symm]
    by_cases h4 : "failure_action" = k
    · simp [h4.symm]
    by_cases h5 : "delay" = k
    · simp [h5.symm]
    by_cases h6 : "parallelism" = k
    · simp [h6.symm]
    have e1 : ¬ k = "order" := fun e => h1 e.symm
    have e2 : ¬ k = "max_failure_ratio" := fun e => h2 e.symm
    have e3 : ¬ k = "monitor" := fun e => h3 e.symm
    have e4 : ¬ k = "failure_action" := fun e => h4 e.symm
    have e5 : ¬ k = "delay" := fun e => h5 e.symm
    have e6 : ¬ k = "parallelism" := fun e => h6 e.symm
    simp [h1, h2, h3, h4, h5, h6, e1, e2, e3, e4, e5, e6]

/-! ## Hosts, order of the lists and service mode -/

/-- C18 (fails on the code): for the entry `gateway:fe80::1`, which has a `:`,
the flattened `host` is `gateway` and the flattened `ip` is `fe80`: every piece
after the second is dropped, and `host`, `:` and `ip` do not give the entry
back. -/
theorem flattenServiceHosts_drops_after_second_colon :
    flattenServiceHosts (.ofList ["gateway:fe80::1"])
      = .ok [.map [("host", .str "gateway"), ("ip", .str "fe80")]] ∧
    "gateway" ++ ":" ++ "fe80" ≠ "gateway:fe80::1" ∧
    ':' ∈ "gateway:fe80::1".data :=
  ⟨rfl, by decide, by decide⟩

theorem flattenServiceHosts_eq_mapM (inp : Slice String) :
    flattenServiceHosts inp
      = inp.elems.mapM (fun v => do pure (.map (← flattenServiceHostsEntry v))) := by
  rcases inp with _ | ⟨_ | ⟨x, xs⟩⟩
  · rfl
  · rfl
  · simp only [flattenServiceHosts, Slice.ofList_cons_not_empty, Slice.elems]; rfl

theorem flattenServiceConfigs_eq_mapM (inp : Slice (Option ConfigReference)) :
    flattenServiceConfigs inp
      = inp.elems.mapM (fun v => do pure (.map (← flattenServiceConfigsEntry v))) := by
  rcases inp with _ | xs
  · rfl
  · exact flattenServiceConfigs_ofList xs

theorem flattenServiceSecrets_eq_mapM (inp : Slice (Option SecretReference)) :
    flattenServiceSecrets inp
      = inp.elems.mapM (fun v => do pure (.map (← flattenServiceSecretsEntry v))) := by
  rcases inp with _ | xs
  · rfl
  · exact flattenServiceSecrets_ofList xs

/-- The result of a loop whose body wraps a map: each element is the map of the
body on the input element at the same index. -/
theorem mapM_wrap_ok_elim {α : Type} (f : α → Except Panic AttrMap) (xs : List α)
    (out : List Value)
    (h : xs.mapM (fun v => do pure (Value.map (← f v))) = .ok out) :
    out.length = xs.length ∧
      ∀ (i : Nat) (v : α), xs[i]? = some v →
        ∃ m, f v = .ok m ∧ out[i]? = some (.map m) := by
  obtain ⟨hlen, hget⟩ := mapM_ok_elim _ xs out h
  refine ⟨hlen, ?_⟩
  intro i v hv
  obtain ⟨y, hy, hout⟩ := hget i v hv
  cases hf : f v with
  | error e =>
    simp only [hf] at hy
    cases hy
  | ok m =>
    simp only [hf] at hy
    have hy' : (Except.ok (Value.map m) : Except Panic Value) = .ok y := hy
    cases hy'
    exact ⟨m, rfl, hout⟩

/-- C19: the list flatteners keep length and order. Whenever
`flattenServiceHosts`, `flattenServiceConfigs` or `flattenServiceSecrets`
returns, the result has the length of the input and its element at `i` is the
map that the loop body computes from the input element at `i` alone;
`flattenServiceNetworks`, `flattenServiceMounts` and `flattenServicePorts` always
return the input mapped element by element, and `flattenServiceNetworks` gives
the `Target` values in input order. -/
theorem list_flatteners_keep_length_and_order
    (hosts : Slice String) (hostsOut : List Value)
    (hh : flattenServiceHosts hosts = .ok hostsOut)
    (configs : Slice (Option ConfigReference)) (configsOut : List Value)
    (hc : flattenServiceConfigs configs = .ok configsOut)
    (secrets : Slice (Option SecretReference)) (secretsOut : List Value)
    (hs : flattenServiceSecrets secrets = .ok secretsOut)
    (networks : Slice NetworkAttachmentConfig) (mounts : Slice Mount)
    (ports : Slice PortConfig) :
    (hostsOut.length = hosts.len ∧
      ∀ (i : Nat) (v : String), hosts.elems[i]? = some v →
        ∃ m, flattenServiceHostsEntry v = .ok m ∧ hostsOut[i]? = some (.map m)) ∧
    (configsOut.length = configs.len ∧
      ∀ (i : Nat) (v : Option ConfigReference), configs.elems[i]? = some v →
        ∃ m, flattenServiceConfigsEntry v = .ok m ∧ configsOut[i]? = some (.map m)) ∧
    (secretsOut.length = secrets.len ∧
      ∀ (i : Nat) (v : Option SecretReference), secrets.elems[i]? = some v →
        ∃ m, flattenServiceSecretsEntry v = .ok m ∧ secretsOut[i]? = some (.map m)) ∧
    (flattenServiceNetworks networks = networks.elems.map (fun v => .str v.Target) ∧
      (flattenServiceNetworks networks).length = networks.len) ∧
    (flattenServiceMounts mounts
        = mounts.elems.map (fun v => .map (flattenServiceMountsEntry v)) ∧
      (flattenServiceMounts mounts).length = mounts.len) ∧
    (flattenServicePorts ports
        = ports.elems.map (fun v => .map (flattenServicePortsEntry v)) ∧
      (flattenServicePorts ports).length = ports.len) := by
  rw [flattenServiceHosts_eq_mapM] at hh
  rw [flattenServiceConfigs_eq_mapM] at hc
  rw [flattenServiceSecrets_eq_mapM] at hs
  have hn : flattenServiceNetworks networks = networks.elems.map (fun v => .str v.Target) := by
    rcases networks with _ | ⟨_ | ⟨x, xs⟩⟩
    · rfl
    · rfl
    · simp [flattenServiceNetworks, Slice.ofList_cons_not_empty, Slice.elems]
  have hm : flattenServiceMounts mounts
      = mounts.elems.map (fun v => .map (flattenServiceMountsEntry v)) := by
    rcases mounts with _ | xs
    · rfl
    · exact flattenServiceMounts_ofList xs
  have hp : flattenServicePorts ports
      = ports.elems.map (fun v => .map (flattenServicePortsEntry v)) := by
    rcases ports with _ | xs
    · rfl
    · exact flattenServicePorts_ofList xs
  refine ⟨mapM_wrap_ok_elim _ _ _ hh, mapM_wrap_ok_elim _ _ _ hc, mapM_wrap_ok_elim _ _ _ hs,
    ⟨hn, ?_⟩, ⟨hm, ?_⟩, ⟨hp, ?_⟩⟩
  · rw [hn]; simp [Slice.len]
  · rw [hm]; simp [Slice.len]
  · rw [hp]; simp [Slice.len]

/-- Witness of C19: two hosts, one config, one secret, two networks, and no
mounts or ports. -/
theorem list_flatteners_keep_length_and_order_witness :
    flattenServiceNetworks (.ofList [⟨"front"⟩, ⟨"back"⟩]) = [.str "front", .str "back"] ∧
    ([Value.map [("host", .str "a"), ("ip", .str "10.0.0.1")],
      Value.map [("host", .str "b"), ("ip", .str "10.0.0.2")]] : List Value).length = 2 :=
  have h := list_flatteners_keep_length_and_order
    (.ofList ["a:10.0.0.1", "b:10.0.0.2"])
    [.map [("host", .str "a"), ("ip", .str "10.0.0.1")],
      .map [("host", .str "b"), ("ip", .str "10.0.0.2")]] rfl
    (.ofList [some ⟨none, "id1", "cfg"⟩])
    [.map [("config_id", .str "id1"), ("config_name", .str "cfg")]] rfl
    (.ofList [some ⟨none, "id2", ""⟩])
    [.map [("secret_id", .str "id2")]] rfl
    (.ofList [⟨"front"⟩, ⟨"back"⟩]) .nil .nil
  ⟨h.2.2.2.1.1, h.1.1⟩

theorem toInt_of_lt (n : Nat) (h : n < 2 ^ 63) : toInt n = (n : Int) := by
  unfold toInt
  split <;> omega

theorem toInt_of_ge (n : Nat) (h1 : 2 ^ 63 ≤ n) (h2 : n < 2 ^ 64) :
    toInt n = (n : Int) - 2 ^ 64 := by
  unfold toInt
  split <;> omega

/-- C20 (as stated, fails): for a replicated service of `2 ^ 63` replicas the
entry `replicas` is `-2 ^ 63`, not the count: `int(*in.Replicas)` wraps. -/
theorem flattenServiceMode_replicas_wrap :
    flattenServiceMode ⟨some ⟨some (2 ^ 63)⟩, none⟩
      = [.map [("replicated", .list [.map [("replicas", .int (-(2 ^ 63)))]]),
          ("global", .bool false)]] ∧
    (Value.int (-(2 ^ 63)) ≠ Value.int ((2 ^ 63 : Nat) : Int)) := by
  refine ⟨rfl, ?_⟩
  intro h
  have h' := Value.int.inj h
  omega

/-- C20 (amended): `flattenServiceMode` returns a list of one map, in which
`global` is always there and is `true` iff `Global` is set; `replicated`, when
`Replicated` is set, is a list of one map, which has no `replicas` when
`Replicas` is unset, has `replicas` equal to the count when the count is below
`2 ^ 63`, and has `replicas` equal to the count minus `2 ^ 64` for a count from
`2 ^ 63` up to the largest unsigned 64-bit value. -/
theorem flattenServiceMode_global_and_replicas (sm : ServiceMode) :
    ∃ m : AttrMap, flattenServiceMode sm = [.map m] ∧
      m.get "global" = some (.bool sm.Global.isSome) ∧
      (sm.Replicated = none → m.get "replicated" = none) ∧
      (∀ r : ReplicatedService, sm.Replicated = some r →
        ∃ rm : AttrMap, m.get "replicated" = some (.list [.map rm]) ∧
          (r.Replicas = none → rm.get "replicas" = none) ∧
          (∀ n : Nat, r.Replicas = some n → n < 2 ^ 63 →
            rm.get "replicas" = some (.int (n : Int))) ∧
          (∀ n : Nat, r.Replicas = some n → 2 ^ 63 ≤ n → n < 2 ^ 64 →
            rm.get "replicas" = some (.int ((n : Int) - 2 ^ 64)))) := by
  obtain ⟨r, g⟩ := sm
  refine ⟨_, rfl, ?_, ?_, ?_⟩
  · cases r <;> cases g <;> simp [AttrMap.get_set, AttrMap.get_nil]
  · intro hr
    simp only at hr
    subst hr
    cases g <;> simp [AttrMap.get_set, AttrMap.get_nil]
  · intro r' hr
    simp only at hr
    subst hr
    obtain ⟨reps⟩ := r'
    cases reps with
    | none =>
      refine ⟨[], ?_, ?_, ?_, ?_⟩
      · cases g <;> simp [AttrMap.get_set, AttrMap.get_nil, flattenReplicated]
      · intro _; rfl
      · intro n hn; cases hn
      · intro n hn; cases hn
    | some k =>
      refine ⟨[("replicas", .int (toInt k))], ?_, ?_, ?_, ?_⟩
      · cases g <;>
          simp [AttrMap.get_set, AttrMap.get_nil, flattenReplicated, AttrMap.set, AttrMap.get]
      · intro hn; cases hn
      · intro n hn hlt
        simp only [Option.some.injEq] at hn
        subst hn
        simp [AttrMap.get, toInt_of_lt k hlt]
      · intro n hn hge hlt
        simp only [Option.some.injEq] at hn
        subst hn
        simp [AttrMap.get, toInt_of_ge k hge hlt]

/-! ## The failure ratio -/

/-- Rounding `n / den` to the nearest integer, to even on a tie: the result is
within a half of `n / den`, and is even when it is exactly a half away. -/
theorem roundHalfEven_spec (n den : ℕ) (hden : 0 < den) :
    2 * n ≤ 2 * roundHalfEven n den * den + den ∧
    2 * roundHalfEven n den * den ≤ 2 * n + den ∧
    ((2 * n = 2 * roundHalfEven n den * den + den ∨
        2 * roundHalfEven n den * den = 2 * n + den) → roundHalfEven n den % 2 = 0) := by
  have hdiv : den * (n / den) + n % den = n := Nat.div_add_mod n den
  have hr : n % den < den := Nat.mod_lt n hden
  generalize hq : n / den = q at hdiv
  generalize hrr : n % den = r at hdiv hr
  have hdef : roundHalfEven n den
      = if 2 * r > den then q + 1 else if 2 * r = den then q + q % 2 else q := by
    simp only [roundHalfEven, hq, hrr]
  generalize roundHalfEven n den = t at hdef
  by_cases h1 : 2 * r > den
  · rw [if_pos h1] at hdef
    have e1 : 2 * t * den = 2 * (den * q) + 2 * den := by rw [hdef]; ring
    exact ⟨by omega, by omega, fun h => by omega⟩
  · rw [if_neg h1] at hdef
    by_cases h2 : 2 * r = den
    · rw [if_pos h2] at hdef
      have hq2 : q % 2 = 0 ∨ q % 2 = 1 := by omega
      rcases hq2 with h0 | h0
      · have ht' : t = q := by omega
        have e1 : 2 * t * den = 2 * (den * q) := by rw [ht']; ring
        exact ⟨by omega, by omega, fun _ => by omega⟩
      · have ht' : t = q + 1 := by omega
        have e1 : 2 * t * den = 2 * (den * q) + 2 * den := by rw [ht']; ring
        exact ⟨by omega, by omega, fun _ => by omega⟩
    · rw [if_neg h2] at hdef
      have e1 : 2 * t * den = 2 * (den * q) := by rw [hdef]; ring
      exact ⟨by omega, by omega, fun h => by omega⟩

theorem Float32.den_pos (x : Float32) : 0 < x.den := by
  unfold Float32.den
  simp only []
  generalize (if x.bits / 2 ^ 23 % 256 = 0 then 1 else x.bits / 2 ^ 23 % 256) = ex
  by_cases h : ex ≥ 150
  · rw [if_pos h]; exact Nat.one_pos
  · rw [if_neg h]; exact Nat.pow_pos (Nat.succ_pos 1)

/-- The fraction that `formatFloat` computes is the absolute value of the
`float32` by IEEE 754. -/
theorem Float32.magnitude_eq_div (x : Float32) :
    x.magnitude = (x.num : ℚ) / (x.den : ℚ) := by
  unfold Float32.magnitude Float32.num Float32.den
  simp only []
  generalize x.bits / 2 ^ 23 % 256 = e
  generalize x.bits % 2 ^ 23 = frac
  by_cases h0 : e = 0
  · subst h0
    simp only [if_true]
    rw [if_neg (by omega), if_neg (by omega), zpow_neg, div_eq_mul_inv]
    norm_cast
  · simp only [h0, if_false]
    by_cases hge : e ≥ 150
    · rw [if_pos hge, if_pos hge]
      have he150 : ((e : ℤ) - 150) = ((e - 150 : ℕ) : ℤ) := by omega
      rw [he150, zpow_natCast]
      push_cast
      ring
    · rw [if_neg hge, if_neg hge]
      have he150 : ((e : ℤ) - 150) = -((150 - e : ℕ) : ℤ) := by omega
      rw [he150, zpow_neg, zpow_natCast, div_eq_mul_inv]
      push_cast
      ring

theorem formatFloat_eq_round (x : Float32) (hfin : x.isFinite = true) :
    formatFloat x
      = (if x.isNegative then "-" else "")
          ++ toString (roundHalfEven (10 * x.num) x.den / 10) ++ "."
          ++ toString (roundHalfEven (10 * x.num) x.den % 10) := by
  have hne : ¬ x.bits / 2 ^ 23 % 256 = 255 := by
    simpa [Float32.isFinite] using hfin
  unfold formatFloat
  simp only [hne, if_false, Float32.isNegative, beq_iff_eq]
  rfl

/-- The text of a finite `float32`: the sign, then the tenths `t` nearest to ten
times the absolute value, written with one digit after the point. -/
theorem formatFloat_finite (x : Float32) (hfin : x.isFinite = true) :
    ∃ t : ℕ,
      formatFloat x
        = (if x.isNegative then "-" else "") ++ toString (t / 10) ++ "." ++ toString (t % 10) ∧
      |10 * x.magnitude - (t : ℚ)| ≤ 1 / 2 ∧
      (|10 * x.magnitude - (t : ℚ)| = 1 / 2 → t % 2 = 0) := by
  have hden := Float32.den_pos x
  obtain ⟨hlo, hhi, htie⟩ := roundHalfEven_spec (10 * x.num) x.den hden
  refine ⟨roundHalfEven (10 * x.num) x.den, formatFloat_eq_round x hfin, ?_, ?_⟩
  all_goals
    generalize roundHalfEven (10 * x.num) x.den = t at hlo hhi htie
    rw [Float32.magnitude_eq_div]
    generalize x.num = n at hlo hhi htie
    generalize x.den = d at hden hlo hhi htie
    have hd : (0 : ℚ) < (d : ℚ) := Nat.cast_pos.mpr hden
    have hlo' : (2 * (10 * (n : ℚ))) ≤ 2 * t * d + d := by exact_mod_cast hlo
    have hhi' : (2 * (t : ℚ) * d) ≤ 2 * (10 * n) + d := by exact_mod_cast hhi
    have hval : 10 * ((n : ℚ) / d) - t = (10 * n - t * d) / d := by
      field_simp
      ring
  · rw [hval, abs_le]
    constructor
    · rw [le_div_iff₀ hd]; linarith
    · rw [div_le_iff₀ hd]; linarith
  · intro habs
    apply htie
    rw [hval, abs_div, abs_of_pos hd, div_eq_iff (ne_of_gt hd)] at habs
    rcases abs_cases (10 * (n : ℚ) - t * d) with ⟨h1, _⟩ | ⟨h1, _⟩
    · left
      have : (2 * (10 * (n : ℚ))) = 2 * t * d + d := by rw [h1] at habs; linarith
      exact_mod_cast this
    · right
      have : (2 * (t : ℚ) * d) = 2 * (10 * n) + d := by rw [h1] at habs; linarith
      exact_mod_cast this

/-- C14 (as stated, fails): for the ratio 0.25 the entry `max_failure_ratio` is
`0.2`, which is also the entry for the ratio 0.2, a different `float32`; so no
way of reading the text back gives the input ratio for both, and the decimal
`0.2` is not the value 1/4 of the input. -/
theorem max_failure_ratio_quarter_not_read_back :
    (∃ m : AttrMap,
      flattenServiceUpdateOrRollbackConfig (some ⟨1, 0, "pause", 0, ⟨0x3E800000⟩, "stop-first"⟩)
        = [.map m] ∧
      m.get "max_failure_ratio" = some (.str "0.2")) ∧
    Float32.magnitude ⟨0x3E800000⟩ = 1 / 4 ∧
    formatFloat ⟨0x3E4CCCCD⟩ = "0.2" ∧
    (⟨0x3E800000⟩ : Float32) ≠ ⟨0x3E4CCCCD⟩ ∧
    ¬ ∃ readBack : String → Float32,
      readBack (formatFloat ⟨0x3E800000⟩) = ⟨0x3E800000⟩ ∧
      readBack (formatFloat ⟨0x3E4CCCCD⟩) = ⟨0x3E4CCCCD⟩ := by
  have h1 : formatFloat ⟨0x3E800000⟩ = "0.2" := rfl
  have h2 : formatFloat ⟨0x3E4CCCCD⟩ = "0.2" := rfl
  refine ⟨⟨_, rfl, ?_⟩, ?_, h2, by decide, ?_⟩
  · simp [AttrMap.get_set, AttrMap.get_nil, h1]
  · rw [Float32.magnitude_eq_div]
    norm_num [Float32.num, Float32.den]
  · rintro ⟨readBack, ha, hb⟩
    rw [h1] at ha
    rw [h2, ha] at hb
    exact absurd hb (by decide)

/-- C14 (amended): for a finite failure ratio the entry `max_failure_ratio` is
the sign, a decimal numeral, a point and exactly one digit, and it denotes the
number of tenths `t` nearest to ten times the absolute value of the ratio, the
even one on a tie: the text is within 0.05 of the ratio. -/
theorem max_failure_ratio_rounded_to_tenth (c : UpdateConfig)
    (hfin : c.MaxFailureRatio.isFinite = true) :
    ∃ (m : AttrMap) (t : ℕ),
      flattenServiceUpdateOrRollbackConfig (some c) = [.map m] ∧
      m.get "max_failure_ratio"
        = some (.str ((if c.MaxFailureRatio.isNegative then "-" else "")
            ++ toString (t / 10) ++ "." ++ toString (t % 10))) ∧
      (toString (t % 10)).length = 1 ∧
      |10 * c.MaxFailureRatio.magnitude - (t : ℚ)| ≤ 1 / 2 ∧
      (|10 * c.MaxFailureRatio.magnitude - (t : ℚ)| = 1 / 2 → t % 2 = 0) := by
  obtain ⟨t, hfmt, hle, htie⟩ := formatFloat_finite c.MaxFailureRatio hfin
  have hdigit : ∀ d : ℕ, d < 10 → (toString d).length = 1 := by decide
  refine ⟨_, t, rfl, ?_, hdigit _ (Nat.mod_lt t (by decide)), hle, htie⟩
  simp [AttrMap.get_set, AttrMap.get_nil, hfmt]

/-- Witness of C14: the ratios 0.1, 0.0 and 0.5 give `0.1`, `0.0` and `0.5`. -/
theorem max_failure_ratio_rounded_to_tenth_witness :
    (∃ (m : AttrMap) (t : ℕ),
      flattenServiceUpdateOrRollbackConfig
        (some ⟨1, 0, "pause", 0, ⟨0x3DCCCCCD⟩, "stop-first"⟩) = [.map m] ∧
      m.get "max_failure_ratio" = some (.str ("" ++ toString (t / 10) ++ "." ++ toString (t % 10))) ∧
      |10 * Float32.magnitude ⟨0x3DCCCCCD⟩ - (t : ℚ)| ≤ 1 / 2) ∧
    formatFloat ⟨0x3DCCCCCD⟩ = "0.1" ∧ formatFloat ⟨0⟩ = "0.0" ∧
    formatFloat ⟨0x3F000000⟩ = "0.5" := by
  obtain ⟨m, t, h1, h2, _, h4, _⟩ :=
    max_failure_ratio_rounded_to_tenth ⟨1, 0, "pause", 0, ⟨0x3DCCCCCD⟩, "stop-first"⟩ rfl
  exact ⟨⟨m, t, h1, h2, h4⟩, rfl, rfl, rfl⟩

/-! ## The sets of a placement -/

set_option maxRecDepth 100000

/-- The CRC-32 of two strings with the same hash code, and of a third. -/
theorem hashcodeString_samples :
    hashcodeString "plumless" = 1306201125 ∧ hashcodeString "buckeroo" = 1306201125 ∧
    hashcodeString "a" = 3904355907 ∧ hashcodeString "node.role==worker" = 3932156774 := by
  refine ⟨?_, ?_, ?_, ?_⟩ <;> decide

theorem schema.hash_str (h : String → Int) (s : String) :
    schema.hash (schema.HashString h) (.str s) = .ok (schema.stringKey h s) := rfl

theorem schema.add_str (h : String → Int) (m : AttrMap) (s : String) :
    schema.add (schema.HashString h) m (.str s)
      = .ok (if (m.get (schema.stringKey h s)).isSome then m
             else m.set (schema.stringKey h s) (.str s)) := by
  simp only [schema.add, schema.hash_str, bind, Except.bind, pure, Except.pure]
  split <;> rfl

theorem AttrMap.set_of_get_none (m : AttrMap) (k : String) (v : Value)
    (h : m.get k = none) : m.set k v = m ++ [(k, v)] := by
  induction m with
  | nil => rfl
  | cons p rest ih =>
    obtain ⟨a, b⟩ := p
    by_cases hak : a = k
    · simp [AttrMap.get, hak] at h
    · simp only [AttrMap.get, hak, if_false] at h
      simp [AttrMap.set, hak, ih h]

theorem schema.hasString_append (a b : AttrMap) (s : String) :
    schema.hasString (.set (a ++ b)) s
      = (schema.hasString (.set a) s || schema.hasString (.set b) s) := by
  simp [schema.hasString, List.any_append]

theorem schema.hasString_singleton (k t s : String) :
    schema.hasString (.set [(k, .str t)]) s = true ↔ t = s := by
  simp [schema.hasString]

/-- The elements of a set after strings are added: the elements before, and
every added string that is the first with its key, the key being free before. -/
theorem foldlM_add_strings_spec (h : String → Int) (xs : List String) (m : AttrMap) :
    ∃ m', (xs.map (fun v => Value.str v)).foldlM
        (schema.add (schema.HashString h)) m = .ok m' ∧
      ∀ s : String, schema.hasString (.set m') s = true ↔
        (schema.hasString (.set m) s = true ∨
          (m.get (schema.stringKey h s) = none ∧
            ∃ pre post : List String, xs = pre ++ s :: post ∧
              ∀ t ∈ pre, schema.stringKey h t ≠ schema.stringKey h s)) := by
  induction xs generalizing m with
  | nil =>
    refine ⟨m, rfl, fun s => ⟨Or.inl, ?_⟩⟩
    rintro (hm | ⟨_, pre, post, heq, _⟩)
    · exact hm
    · simp at heq
  | cons x xs ih =>
    simp only [List.map_cons, List.foldlM_cons, schema.add_str, bind, Except.bind]
    by_cases hx : (m.get (schema.stringKey h x)).isSome
    · simp only [hx, if_true]
      obtain ⟨m', hm', hspec⟩ := ih m
      refine ⟨m', hm', fun s => ?_⟩
      rw [hspec s]
      constructor
      · rintro (hm | ⟨hnone, pre, post, heq, hpre⟩)
        · exact Or.inl hm
        · refine Or.inr ⟨hnone, x :: pre, post, by simp [heq], ?_⟩
          intro t ht
          rcases List.mem_cons.mp ht with rfl | ht'
          · intro hk
            rw [hk, hnone] at hx
            simp at hx
          · exact hpre t ht'
      · rintro (hm | ⟨hnone, pre, post, heq, hpre⟩)
        · exact Or.inl hm
        · cases pre with
          | nil =>
            simp only [List.nil_append, List.cons.injEq] at heq
            obtain ⟨rfl, _⟩ := heq
            rw [hnone] at hx
            simp at hx
          | cons y pre' =>
            simp only [List.cons_append, List.cons.injEq] at heq
            obtain ⟨rfl, hxs⟩ := heq
            exact Or.inr ⟨hnone, pre', post, hxs, fun t ht => hpre t (by simp [ht])⟩
    · have hxn : m.get (schema.stringKey h x) = none := by
        cases hg : m.get (schema.stringKey h x) with
        | none => rfl
        | some v => simp [hg] at hx
      simp only [hx, if_false]
      rw [AttrMap.set_of_get_none m _ _ hxn]
      obtain ⟨m', hm', hspec⟩ := ih (m ++ [(schema.stringKey h x, .str x)])
      refine ⟨m', hm', fun s => ?_⟩
      rw [hspec s, schema.hasString_append, Bool.or_eq_true, schema.hasString_singleton,
        ← AttrMap.set_of_get_none m _ (.str x) hxn, AttrMap.get_set]
      constructor
      · rintro ((hm | rfl) | ⟨hnone, pre, post, heq, hpre⟩)
        · exact Or.inl hm
        · exact Or.inr ⟨hxn, [], xs, rfl, fun t ht => by simp at ht⟩
        · by_cases hk : schema.stringKey h x = schema.stringKey h s
          · simp [hk] at hnone
          · simp only [hk, if_false] at hnone
            refine Or.inr ⟨hnone, x :: pre, post, by simp [heq], ?_⟩
            intro t ht
            rcases List.mem_cons.mp ht with rfl | ht'
            · exact hk
            · exact hpre t ht'
      · rintro (hm | ⟨hnone, pre, post, heq, hpre⟩)
        · exact Or.inl (Or.inl hm)
        · cases pre with
          | nil =>
            simp only [List.nil_append, List.cons.injEq] at heq
            exact Or.inl (Or.inr heq.1)
          | cons y pre' =>
            simp only [List.cons_append, List.cons.injEq] at heq
            obtain ⟨rfl, hxs⟩ := heq
            have hk : ¬ schema.stringKey h x = schema.stringKey h s := hpre x (by simp)
            refine Or.inr ⟨by simp [hk, hnone], pre', post, hxs,
              fun t ht => hpre t (by simp [ht])⟩

theorem schema.NewSet_strings_spec (h : String → Int) (xs : List String) :
    ∃ st, schema.NewSet (schema.HashString h) (xs.map (fun v => Value.str v)) = .ok st ∧
      ∀ s : String, schema.hasString st s = true ↔
        schema.firstWithKey (schema.HashString h) xs s := by
  obtain ⟨m', hm', hspec⟩ := foldlM_add_strings_spec h xs []
  refine ⟨.set m', by simp [schema.NewSet, hm', bind, Except.bind, pure, Except.pure], ?_⟩
  intro s
  rw [hspec s]
  simp only [schema.firstWithKey, schema.hash_str, ne_eq, Except.ok.injEq]
  constructor
  · rintro (hm | ⟨_, hex⟩)
    · simp [schema.hasString] at hm
    · exact hex
  · intro hex
    exact Or.inr ⟨rfl, hex⟩

theorem mapM_flattenPlacementPrefsEntry (xs : List PlacementPreference)
    (hall : ∀ q ∈ xs, q.Spread ≠ none) :
    xs.mapM flattenPlacementPrefsEntry
      = .ok ((xs.filterMap (fun q => q.Spread.map (fun sp => sp.SpreadDescriptor))).map
          (fun v => Value.str v)) := by
  induction xs with
  | nil => rfl
  | cons q qs ih =>
    rw [List.mapM_cons, ih (fun q' hq' => hall q' (by simp [hq']))]
    obtain ⟨sp⟩ := q
    cases sp with
    | none => exact absurd rfl (hall ⟨none⟩ (by simp))
    | some d => rfl

theorem flattenPlacementPrefs_spec (h : String → Int) (prefs : Slice PlacementPreference)
    (hall : ∀ q ∈ prefs.elems, q.Spread ≠ none) :
    ∃ st, flattenPlacementPrefs h prefs = .ok st ∧
      ∀ s : String, schema.hasString st s = true ↔
        schema.firstWithKey (schema.HashString h)
          (prefs.elems.filterMap (fun q => q.Spread.map (fun sp => sp.SpreadDescriptor))) s := by
  obtain ⟨st, hst, hspec⟩ := schema.NewSet_strings_spec h
    (prefs.elems.filterMap (fun q => q.Spread.map (fun sp => sp.SpreadDescriptor)))
  refine ⟨st, ?_, hspec⟩
  rcases prefs with _ | ⟨_ | ⟨x, xs⟩⟩
  · exact hst
  · exact hst
  · have hall' : ∀ q ∈ x :: xs, q.Spread ≠ none := hall
    simp only [flattenPlacementPrefs, Slice.ofList_cons_not_empty, Slice.elems]
    rw [if_neg (by simp), mapM_flattenPlacementPrefsEntry _ hall']
    exact hst

/-- C15 (as stated, fails): with the hash code of the library, the CRC-32, the
constraints `plumless` and `buckeroo` have the same code, and the set
`constraints` holds the first of them only: `buckeroo` occurs in `Constraints`
and is no member of the set. -/
theorem flattenServicePlacement_collision_drops_constraint :
    ∃ cset : Value,
      flattenServicePlacement hashcodeString
          (some ⟨.ofList ["plumless", "buckeroo"], .nil, .nil⟩)
        = .ok [.map [("constraints", cset)]] ∧
      cset = .set [("1306201125", .str "plumless")] ∧
      "buckeroo" ∈ ["plumless", "buckeroo"] ∧
      schema.hasString cset "buckeroo" = false := by
  obtain ⟨h1, h2, _, _⟩ := hashcodeString_samples
  have k1 : schema.stringKey hashcodeString "plumless" = "1306201125" := by
    simp only [schema.stringKey, h1]; rfl
  have k2 : schema.stringKey hashcodeString "buckeroo" = "1306201125" := by
    simp only [schema.stringKey, h2]; rfl
  refine ⟨.set [("1306201125", .str "plumless")], ?_, rfl, by simp, by decide⟩
  simp [flattenServicePlacement, newStringSet, schema.NewSet, Slice.len, Slice.elems,
    schema.add_str, k1, k2, AttrMap.get, AttrMap.set, bind, Except.bind, pure, Except.pure]

/-- C15 (amended): for a placement without platforms whose preferences all have
a `Spread`, `flattenServicePlacement` returns a list of one map, which has
`constraints` iff `Constraints` is non-empty and `prefs` iff `Preferences` is
non-empty; a string is a member of the set `constraints` iff it is the first
string of `Constraints` with its hash code, and a member of the set `prefs` iff
it is the first spread descriptor of `Preferences` with its hash code. -/
theorem flattenServicePlacement_sets (h : String → Int) (p : Placement)
    (hplat : p.Platforms.len = 0)
    (hspread : ∀ q ∈ p.Preferences.elems, q.Spread ≠ none) :
    ∃ (m : AttrMap) (cset pset : Value),
      flattenServicePlacement h (some p) = .ok [.map m] ∧
      m.get "constraints" = (if 0 < p.Constraints.len then some cset else none) ∧
      m.get "prefs" = (if 0 < p.Preferences.len then some pset else none) ∧
      (∀ s : String, schema.hasString cset s = true ↔
        schema.firstWithKey (schema.HashString h) p.Constraints.elems s) ∧
      (∀ s : String, schema.hasString pset s = true ↔
        schema.firstWithKey (schema.HashString h)
          (p.Preferences.elems.filterMap
            (fun q => q.Spread.map (fun sp => sp.SpreadDescriptor))) s) := by
  obtain ⟨cs, prefs, plats⟩ := p
  obtain ⟨cset, hc, hcs⟩ := schema.NewSet_strings_spec h cs.elems
  obtain ⟨pset, hp, hps⟩ := flattenPlacementPrefs_spec h prefs hspread
  have hc' : newStringSet (schema.HashString h) cs = .ok cset := hc
  have hpl : ¬ plats.len > 0 := by simp only at hplat; omega
  refine ⟨(if prefs.len > 0 then
      (if cs.len > 0 then AttrMap.set [] "constraints" cset else []).set "prefs" pset
      else (if cs.len > 0 then AttrMap.set [] "constraints" cset else [])),
    cset, pset, ?_, ?_, ?_, hcs, hps⟩
  · by_cases h1 : cs.len > 0 <;> by_cases h2 : prefs.len > 0 <;>
      simp only [flattenServicePlacement, hc', hp, h1, h2, hpl, if_true, if_false, bind,
        Except.bind, pure, Except.pure]
  · by_cases h1 : cs.len > 0 <;> by_cases h2 : prefs.len > 0 <;>
      simp [h1, h2, AttrMap.get_set, AttrMap.get_nil]
  · by_cases h1 : cs.len > 0 <;> by_cases h2 : prefs.len > 0 <;>
      simp [h1, h2, AttrMap.get_set, AttrMap.get_nil]

/-- Witness of C15: a placement with two constraints and one preference, hashed
with the CRC-32 of the library. -/
theorem flattenServicePlacement_sets_witness :
    ∃ (m : AttrMap) (cset pset : Value),
      flattenServicePlacement hashcodeString
        (some ⟨.ofList ["node.role==worker", "node.labels.zone==a"],
          .ofList [⟨some ⟨"node.labels.rack"⟩⟩], .nil⟩) = .ok [.map m] ∧
      m.get "constraints" = some cset ∧
      m.get "prefs" = some pset ∧
      (∀ s : String, schema.hasString cset s = true ↔
        schema.firstWithKey (schema.HashString hashcodeString)
          ["node.role==worker", "node.labels.zone==a"] s) := by
  obtain ⟨m, cset, pset, h1, h2, h3, h4, _⟩ :=
    flattenServicePlacement_sets hashcodeString
      ⟨.ofList ["node.role==worker", "node.labels.zone==a"],
        .ofList [⟨some ⟨"node.labels.rack"⟩⟩], .nil⟩ rfl
      (by
        intro q hq
        simp only [Slice.elems, List.mem_singleton] at hq
        subst hq
        simp)
  exact ⟨m, cset, pset, h1, by simpa [Slice.len, Slice.elems] using h2,
    by simpa [Slice.len, Slice.elems] using h3, h4⟩

/-! ## The text of a duration -/

theorem digitChar_eq_natDigitChar : ∀ k : ℕ, k < 10 → Nat.digitChar k = digitChar k := by
  decide

theorem decimal_of_lt (n : ℕ) (h : n < 10) : decimal n = [digitChar n] := by
  rw [decimal, if_pos h]

theorem decimal_of_ge (n : ℕ) (h : 10 ≤ n) :
    decimal n = decimal (n / 10) ++ [digitChar (n % 10)] := by
  rw [decimal, if_neg (by omega)]

theorem toDigitsCore_eq_decimal (f : ℕ) :
    ∀ (n : ℕ) (ds : List Char), n < f → Nat.toDigitsCore 10 f n ds = decimal n ++ ds := by
  induction f with
  | zero => intro n ds h; omega
  | succ f ih =>
    intro n ds h
    simp only [Nat.toDigitsCore]
    by_cases h0 : n / 10 = 0
    · have hn : n < 10 := by omega
      rw [if_pos h0, decimal_of_lt n hn, Nat.mod_eq_of_lt hn, digitChar_eq_natDigitChar n hn]
      rfl
    · have hn : 10 ≤ n := by omega
      rw [if_neg h0, ih (n / 10) _ (by omega), decimal_of_ge n hn,
        digitChar_eq_natDigitChar (n % 10) (Nat.mod_lt n (by decide))]
      simp

/-- The numeral `decimal n` is the text of `n`. -/
theorem decimal_eq_toString (n : ℕ) : decimal n = (toString n).data := by
  show decimal n = (Nat.repr n).data
  simp only [Nat.repr, Nat.toDigits, List.asString]
  rw [toDigitsCore_eq_decimal (n + 1) n [] (by omega)]
  simp

theorem fmtIntLoop_eq_decimal (f : ℕ) :
    ∀ (v : ℕ) (buf : List Char), 0 < v → v < 10 ^ f → fmtIntLoop f v buf = decimal v ++ buf := by
  induction f with
  | zero => intro v buf h0 h; simp at h; omega
  | succ f ih =>
    intro v buf h0 h
    simp only [fmtIntLoop, h0, if_true]
    by_cases hv : v < 10
    · have hz : v / 10 = 0 := by omega
      rw [hz, decimal_of_lt v hv, Nat.mod_eq_of_lt hv]
      cases f <;> simp [fmtIntLoop]
    · rw [ih (v / 10) _ (by omega) (by rw [Nat.pow_succ] at h; omega),
        decimal_of_ge v (by omega)]
      simp

theorem fmtInt_eq_decimal (buf : List Char) (v : ℕ) (h : v < 10 ^ 20) :
    fmtInt buf v = decimal v ++ buf := by
  unfold fmtInt
  by_cases h0 : v = 0
  · subst h0
    rw [if_pos rfl, decimal_of_lt 0 (by decide)]
    rfl
  · rw [if_neg h0, fmtIntLoop_eq_decimal 20 v buf (by omega) h]

theorem fmtFracLoop_true (i : ℕ) :
    ∀ (v : ℕ) (buf : List Char),
      fmtFracLoop i v true buf = (digitsPad i v ++ buf, v / 10 ^ i, true) := by
  induction i with
  | zero => intro v buf; simp [fmtFracLoop, digitsPad]
  | succ i ih =>
    intro v buf
    simp only [fmtFracLoop, Bool.true_or, if_true, ih, digitsPad]
    simp [Nat.pow_succ, Nat.div_div_eq_div_mul, Nat.mul_comm]

theorem mod_pow_succ_low (v i : ℕ) :
    v % 10 ^ (i + 1) = v % 10 + 10 * (v / 10 % 10 ^ i) := by
  rw [Nat.pow_succ, Nat.mul_comm, Nat.mod_mul]

theorem fracDigits_of_mod_eq_zero (i : ℕ) :
    ∀ v : ℕ, v % 10 ^ i = 0 → fracDigits i v = [] := by
  induction i with
  | zero => intro v _; rfl
  | succ i ih =>
    intro v h
    have hm := mod_pow_succ_low v i
    have h10 : v % 10 = 0 := by omega
    have hrest : v / 10 % 10 ^ i = 0 := by omega
    simp only [fracDigits, h10, if_true]
    exact ih _ hrest

theorem fmtFracLoop_false (i : ℕ) :
    ∀ (v : ℕ) (buf : List Char),
      fmtFracLoop i v false buf
        = (fracDigits i v ++ buf, v / 10 ^ i, decide (v % 10 ^ i ≠ 0)) := by
  induction i with
  | zero => intro v buf; simp [fmtFracLoop, fracDigits, Nat.mod_one]
  | succ i ih =>
    intro v buf
    have hmod := mod_pow_succ_low v i
    have hdiv : v / 10 / 10 ^ i = v / 10 ^ (i + 1) := by
      rw [Nat.div_div_eq_div_mul, Nat.pow_succ, Nat.mul_comm]
    by_cases h10 : v % 10 = 0
    · simp only [fmtFracLoop, fracDigits, h10, if_true, Bool.false_or, bne_self_eq_false,
        Bool.false_eq_true, if_false, ih, hdiv]
      have : (v / 10 % 10 ^ i ≠ 0) ↔ (v % 10 ^ (i + 1) ≠ 0) := by
        constructor <;> intro h <;> omega
      simp only [this]
    · have hne : (v % 10 != 0) = true := by simpa using h10
      have hne' : v % 10 ^ (i + 1) ≠ 0 := by omega
      simp only [fmtFracLoop, fracDigits, h10, if_false, Bool.false_or, hne, if_true,
        fmtFracLoop_true, hdiv, hne', ne_eq, not_false_eq_true, decide_True]
      simp

theorem fmtFrac_eq (buf : List Char) (v prec : ℕ) :
    fmtFrac buf v prec = (fracPart prec v ++ buf, v / 10 ^ prec) := by
  simp only [fmtFrac, fmtFracLoop_false, fracPart]
  by_cases h : v % 10 ^ prec = 0
  · simp [h, fracDigits_of_mod_eq_zero prec v h]
  · simp [h]

theorem fracPart_zero (v : ℕ) : fracPart 0 v = [] := by
  simp [fracPart, Nat.mod_one]

/-- The text of a duration in closed form: the sign, then `durationBody`. -/
theorem durationString_eq (d : ℤ) (h : d.natAbs < 2 ^ 64) :
    durationString d
      = String.mk ((if d < 0 then ['-'] else []) ++ durationBody d.natAbs) := by
  have hbuf : ∀ (buf : List Char), (if decide (d < 0) = true then '-' :: buf else buf)
      = (if d < 0 then ['-'] else []) ++ buf := by
    intro buf
    by_cases hd : d < 0 <;> simp [hd]
  unfold durationString
  simp only [hbuf, fmtFrac_eq]
  congr 2
  generalize d.natAbs = u at h
  have hb : ∀ v : ℕ, v ≤ u → v < 10 ^ 20 := fun v hv => by omega
  unfold durationBody
  by_cases h0 : u = 0
  · subst h0; simp
  by_cases h1 : u < 1000
  · have h9 : u < 1000000000 := by omega
    simp only [h0, h1, h9, if_true, if_false, fracPart_zero, List.nil_append, Nat.pow_zero,
      Nat.div_one]
    rw [fmtInt_eq_decimal _ _ (hb _ (Nat.le_refl _))]
  by_cases h2 : u < 1000000
  · have h9 : u < 1000000000 := by omega
    simp only [h0, h1, h2, h9, if_true, if_false]
    rw [fmtInt_eq_decimal _ _ (hb _ (Nat.div_le_self _ _))]
    simp
  by_cases h3 : u < 1000000000
  · simp only [h0, h1, h2, h3, if_true, if_false]
    rw [fmtInt_eq_decimal _ _ (hb _ (Nat.div_le_self _ _))]
    simp
  · simp only [h0, h1, h2, h3, if_false]
    have e9 : (10 : ℕ) ^ 9 = 1000000000 := by norm_num
    rw [e9]
    rw [fmtInt_eq_decimal _ (u / 1000000000 % 60) (by omega)]
    unfold hmPart
    by_cases hm : u / 1000000000 / 60 = 0
    · have hm' : ¬ u / 1000000000 / 60 > 0 := by omega
      simp [hm]
    · have hm' : u / 1000000000 / 60 > 0 := by omega
      simp only [hm, hm', if_true, if_false]
      rw [fmtInt_eq_decimal _ (u / 1000000000 / 60 % 60) (by omega)]
      by_cases hh : u / 1000000000 / 60 / 60 = 0
      · have hh' : ¬ u / 1000000000 / 60 / 60 > 0 := by omega
        simp [hh]
      · have hh' : u / 1000000000 / 60 / 60 > 0 := by omega
        simp only [hh, hh', if_true, if_false]
        rw [fmtInt_eq_decimal _ (u / 1000000000 / 60 / 60) (by omega)]
        simp

theorem digitChar_facts : ∀ k : ℕ, k < 10 →
    digitChar k ≠ 'm' ∧ digitChar k ≠ 'h' ∧ digitChar k ≠ 's' ∧ (digitChar k = '0' ↔ k = 0) := by
  decide

theorem decimal_reverse (n : ℕ) :
    ∃ tl : List Char, (decimal n).reverse = digitChar (n % 10) :: tl ∧
      (n < 10 → tl = []) ∧ (10 ≤ n → ∃ tl', tl = digitChar (n / 10 % 10) :: tl') := by
  by_cases h : n < 10
  · refine ⟨[], ?_, fun _ => rfl, fun h' => by omega⟩
    rw [decimal_of_lt n h, Nat.mod_eq_of_lt h]
    rfl
  · have hge : 10 ≤ n := by omega
    refine ⟨(decimal (n / 10)).reverse, ?_, fun h' => by omega, fun _ => ?_⟩
    · rw [decimal_of_ge n hge]
      simp
    · by_cases h2 : n / 10 < 10
      · exact ⟨[], by rw [decimal_of_lt _ h2, Nat.mod_eq_of_lt h2]; rfl⟩
      · exact ⟨(decimal (n / 10 / 10)).reverse, by rw [decimal_of_ge _ (by omega)]; simp⟩

theorem fracDigits_reverse (i : ℕ) :
    ∀ v : ℕ, v % 10 ^ i ≠ 0 →
      ∃ (k : ℕ) (tl : List Char), 1 ≤ k ∧ k < 10 ∧ (fracDigits i v).reverse = digitChar k :: tl := by
  induction i with
  | zero => intro v h; simp [Nat.mod_one] at h
  | succ i ih =>
    intro v h
    have hm := mod_pow_succ_low v i
    by_cases h10 : v % 10 = 0
    · obtain ⟨k, tl, hk1, hk2, hrev⟩ := ih (v / 10) (by omega)
      exact ⟨k, tl, hk1, hk2, by simp only [fracDigits, h10, if_true]; exact hrev⟩
    · refine ⟨v % 10, (digitsPad i (v / 10)).reverse, by omega, Nat.mod_lt v (by decide), ?_⟩
      simp [fracDigits, h10]

theorem stringsHasSuffix_m0s (l : List Char) :
    stringsHasSuffix (String.mk l) "m0s" = (['s', '0', 'm'] : List Char).isPrefixOf l.reverse :=
  rfl

theorem stringsHasSuffix_h0m (l : List Char) :
    stringsHasSuffix (String.mk l) "h0m" = (['m', '0', 'h'] : List Char).isPrefixOf l.reverse :=
  rfl

/-- The text of a duration always ends in `s`. -/
theorem durationBody_reverse (u : ℕ) : ∃ tl, (durationBody u).reverse = 's' :: tl := by
  unfold durationBody
  split
  · exact ⟨_, rfl⟩
  split
  · exact ⟨_, by rw [List.reverse_append]; rfl⟩
  split
  · exact ⟨_, by rw [List.reverse_append]; rfl⟩
  split
  · exact ⟨_, by rw [List.reverse_append]; rfl⟩
  · exact ⟨_, by rw [List.reverse_append]; rfl⟩

/-- The text of a duration ends in `m0s` only when the duration is a whole
number of minutes and not zero. -/
theorem durationBody_not_m0s (u : ℕ) (sign : List Char) (hsign : sign = [] ∨ sign = ['-'])
    (hu : ∀ k : ℕ, 0 < k → u ≠ k * 60000000000) :
    (['s', '0', 'm'] : List Char).isPrefixOf (sign ++ durationBody u).reverse = false := by
  have hsr : ∀ c : Char, c ∈ sign.reverse → c ≠ 'm' := by
    intro c hc
    rcases hsign with rfl | rfl
    · simp at hc
    · simp at hc; subst hc; decide
  unfold durationBody
  by_cases h0 : u = 0
  · subst h0
    rcases hsign with rfl | rfl <;> decide
  by_cases h1 : u < 1000
  · simp [h0, h1, List.isPrefixOf]
  by_cases h2 : u < 1000000
  · simp [h0, h1, h2, List.isPrefixOf]
  by_cases h3 : u < 1000000000
  · simp [h0, h1, h2, h3, List.isPrefixOf]
  simp only [h0, h1, h2, h3, if_false, List.reverse_append, List.reverse_cons, List.reverse_nil,
    List.nil_append, List.append_assoc]
  by_cases hf : u % 1000000000 = 0
  · have hfp : fracPart 9 u = [] := by simp [fracPart, hf]
    rw [hfp]
    obtain ⟨tl, hrev, hlt, hge⟩ := decimal_reverse (u / 1000000000 % 60)
    rw [hrev]
    have hd := digitChar_facts (u / 1000000000 % 60 % 10) (Nat.mod_lt _ (by decide))
    by_cases hs10 : u / 1000000000 % 60 % 10 = 0
    · by_cases hs : u / 1000000000 % 60 < 10
      · -- the seconds are zero: the duration would be whole minutes
        exfalso
        have hsec : u / 1000000000 % 60 = 0 := by omega
        have hk : u = (u / 1000000000 / 60) * 60000000000 := by omega
        exact hu (u / 1000000000 / 60) (by omega) hk
      · obtain ⟨tl', htl⟩ := hge (by omega)
        have hd2 := digitChar_facts (u / 1000000000 % 60 / 10 % 10) (Nat.mod_lt _ (by decide))
        rw [htl]
        simp [List.isPrefixOf, hd2.1.symm]
    · have : ¬ digitChar (u / 1000000000 % 60 % 10) = '0' := fun e => hs10 (hd.2.2.2.mp e)
      simp [List.isPrefixOf, Ne.symm this]
  · obtain ⟨k, tl, hk1, hk2, hrev⟩ := fracDigits_reverse 9 u (by simpa using hf)
    have hd := digitChar_facts k hk2
    have : ¬ digitChar k = '0' := fun e => by have := hd.2.2.2.mp e; omega
    simp [fracPart, hf, hrev, List.isPrefixOf, Ne.symm this]

theorem dropLastTwo_append (l : List Char) (a b : Char) :
    dropLastTwo (String.mk (l ++ [a, b])) = String.mk l := by
  simp [dropLastTwo]

/-- `shortDur` leaves the text of a duration as it is, unless the duration is a
whole number of minutes and not zero. -/
theorem shortDur_other (d : ℤ) (h : d.natAbs < 2 ^ 64)
    (hu : ∀ k : ℕ, 0 < k → d.natAbs ≠ k * 60000000000) :
    shortDur d = durationString d := by
  have hsign : (if d < 0 then ['-'] else ([] : List Char)) = [] ∨
      (if d < 0 then ['-'] else ([] : List Char)) = ['-'] := by
    by_cases hd : d < 0 <;> simp [hd]
  have h1 := durationBody_not_m0s d.natAbs _ hsign hu
  obtain ⟨tl, htl⟩ := durationBody_reverse d.natAbs
  have h2 : (['m', '0', 'h'] : List Char).isPrefixOf
      ((if d < 0 then ['-'] else []) ++ durationBody d.natAbs).reverse = false := by
    rw [List.reverse_append, htl]
    simp [List.isPrefixOf]
  unfold shortDur
  simp only [durationString_eq d h, stringsHasSuffix_m0s, stringsHasSuffix_h0m, h1, h2,
    Bool.false_eq_true, if_false]

/-- `shortDur` of a duration of `k` whole minutes, `k` not zero: the hours and
the minutes, and the hours alone when the minutes are zero. -/
theorem shortDur_whole_minutes (d : ℤ) (h : d.natAbs < 2 ^ 64) (k : ℕ) (hk : 0 < k)
    (hd : d.natAbs = k * 60000000000) :
    shortDur d = String.mk ((if d < 0 then ['-'] else []) ++
      (if k % 60 = 0 then decimal (k / 60) ++ ['h']
       else (if k / 60 = 0 then [] else decimal (k / 60) ++ ['h'])
         ++ decimal (k % 60) ++ ['m'])) := by
  have hbody : durationBody d.natAbs
      = ((if k / 60 = 0 then [] else decimal (k / 60) ++ ['h']) ++ decimal (k % 60))
          ++ ['m', '0', 's'] := by
    have e1 : k * 60000000000 / 1000000000 = k * 60 := by omega
    have e2 : k * 60 / 60 = k := by omega
    have e3 : k * 60 % 60 = 0 := by omega
    have e4 : k * 60000000000 % 1000000000 = 0 := by omega
    have n0 : ¬ k * 60000000000 = 0 := by omega
    have n1 : ¬ k * 60000000000 < 1000 := by omega
    have n2 : ¬ k * 60000000000 < 1000000 := by omega
    have n3 : ¬ k * 60000000000 < 1000000000 := by omega
    have nk : ¬ k = 0 := by omega
    rw [hd]
    unfold durationBody hmPart
    simp only [n0, n1, n2, n3, if_false, e1, e2, e3, nk]
    have hfp : fracPart 9 (k * 60000000000) = [] := by simp [fracPart, e4]
    rw [hfp, decimal_of_lt 0 (by decide)]
    simp
    rfl
  unfold shortDur
  rw [durationString_eq d h, hbody]
  generalize (if d < 0 then ['-'] else ([] : List Char)) = sign
  generalize hP : (if k / 60 = 0 then [] else decimal (k / 60) ++ ['h']) = P
  have hs1 : stringsHasSuffix
      (String.mk (sign ++ ((P ++ decimal (k % 60)) ++ ['m', '0', 's']))) "m0s" = true := by
    rw [stringsHasSuffix_m0s]
    simp [List.isPrefixOf]
  have hdrop1 : dropLastTwo (String.mk (sign ++ ((P ++ decimal (k % 60)) ++ ['m', '0', 's'])))
      = String.mk (sign ++ P ++ decimal (k % 60) ++ ['m']) := by
    have : sign ++ ((P ++ decimal (k % 60)) ++ ['m', '0', 's'])
        = (sign ++ P ++ decimal (k % 60) ++ ['m']) ++ ['0', 's'] := by simp
    rw [this, dropLastTwo_append]
  simp only [hs1, if_true, hdrop1]
  obtain ⟨tl, hrev, hlt, hge⟩ := decimal_reverse (k % 60)
  by_cases hM : k % 60 = 0
  · have hH : ¬ k / 60 = 0 := by omega
    have hPe : P = decimal (k / 60) ++ ['h'] := by rw [← hP, if_neg hH]
    have hs2 : stringsHasSuffix (String.mk (sign ++ P ++ decimal (k % 60) ++ ['m'])) "h0m"
        = true := by
      rw [stringsHasSuffix_h0m, hPe, hM, decimal_of_lt 0 (by decide)]
      simp [List.isPrefixOf]
      rfl
    have hdrop2 : dropLastTwo (String.mk (sign ++ P ++ decimal (k % 60) ++ ['m']))
        = String.mk (sign ++ (decimal (k / 60) ++ ['h'])) := by
      have : sign ++ P ++ decimal (k % 60) ++ ['m']
          = (sign ++ (decimal (k / 60) ++ ['h'])) ++ ['0', 'm'] := by
        rw [hPe, hM, decimal_of_lt 0 (by decide)]
        simp
        rfl
      rw [this, dropLastTwo_append]
    rw [if_pos hs2, hdrop2, if_pos hM]
  · have hs2 : stringsHasSuffix (String.mk (sign ++ P ++ decimal (k % 60) ++ ['m'])) "h0m"
        = false := by
      rw [stringsHasSuffix_h0m]
      simp only [List.reverse_append, List.reverse_cons, List.reverse_nil, List.nil_append,
        List.singleton_append, hrev]
      have hd0 := digitChar_facts (k % 60 % 10) (Nat.mod_lt _ (by decide))
      by_cases h10 : k % 60 % 10 = 0
      · obtain ⟨tl', htl⟩ := hge (by omega)
        have hd2 := digitChar_facts (k % 60 / 10 % 10) (Nat.mod_lt _ (by decide))
        rw [htl]
        simp [List.isPrefixOf, hd2.2.1.symm]
      · have : ¬ digitChar (k % 60 % 10) = '0' := fun e => h10 (hd0.2.2.2.mp e)
        simp [List.isPrefixOf, Ne.symm this]
    rw [if_neg (by rw [hs2]; decide), if_neg hM]
    simp

theorem mk_decimal (n : ℕ) : String.mk (decimal n) = toString n := by
  rw [decimal_eq_toString]

theorem natAbs_lt_of_int64 (d : ℤ) (hlo : -(2 ^ 63) ≤ d) (hhi : d < 2 ^ 63) :
    d.natAbs < 2 ^ 64 := by
  omega

/-- C16: `shortDur` trims only the trailing zero components. For a duration `d`
in the range of `time.Duration` that is `H` hours and `M < 60` minutes, not both
zero, `shortDur d` is the sign and `<H>h` when `M` is zero, `<M>m` when `H` is
zero, and `<H>h<M>m` otherwise; for every other duration, zero or not a whole
number of minutes, it is the text of `d.String()` unchanged. -/
theorem shortDur_trims_zero_components (d : ℤ) (hlo : -(2 ^ 63) ≤ d) (hhi : d < 2 ^ 63) :
    (∀ H M : ℕ, M < 60 → 0 < 60 * H + M → d.natAbs = (60 * H + M) * 60000000000 →
      shortDur d = (if d < 0 then "-" else "") ++
        (if M = 0 then toString H ++ "h"
         else if H = 0 then toString M ++ "m"
         else toString H ++ "h" ++ toString M ++ "m")) ∧
    ((d = 0 ∨ d.natAbs % 60000000000 ≠ 0) → shortDur d = durationString d) := by
  have hr := natAbs_lt_of_int64 d hlo hhi
  constructor
  · intro H M hM hpos hd
    rw [shortDur_whole_minutes d hr (60 * H + M) hpos hd]
    have e1 : (60 * H + M) % 60 = M := by omega
    have e2 : (60 * H + M) / 60 = H := by omega
    rw [e1, e2]
    apply String.ext
    by_cases hneg : d < 0 <;> by_cases hM0 : M = 0 <;> by_cases hH0 : H = 0 <;>
      simp [hneg, hM0, hH0, String.data_append, decimal_eq_toString]
  · intro hcase
    apply shortDur_other d hr
    intro k hk hd
    rcases hcase with h0 | hmod
    · subst h0
      simp at hd
      omega
    · rw [hd] at hmod
      omega

/-- Witness of C16: one hour and thirty minutes, and one and a half seconds. -/
theorem shortDur_trims_zero_components_witness :
    shortDur 5400000000000 = "1h30m" ∧ shortDur 1500000000 = durationString 1500000000 :=
  ⟨(shortDur_trims_zero_components 5400000000000 (by decide) (by decide)).1 1 30
      (by decide) (by decide) (by decide),
    (shortDur_trims_zero_components 1500000000 (by decide) (by decide)).2
      (Or.inr (by decide))⟩

/-! ## Reading a duration back -/

theorem readDuration_samples :
    readDuration "1h30m" = 5400000000000 ∧ readDuration "-1m30s" = -90000000000 ∧
    readDuration "1.5ms" = 1500000 ∧ readDuration "72h3m0.5s" = 259380500000000 ∧
    readDuration "0s" = 0 ∧ readDuration "999ns" = 999 ∧ readDuration "1.05µs" = 1050 := by
  refine ⟨?_, ?_, ?_, ?_, ?_, ?_, ?_⟩ <;> decide

theorem digitChar_read : ∀ k : ℕ, k < 10 →
    digitChar k ≠ 's' ∧ digitChar k ≠ 'm' ∧ digitChar k ≠ 'n' ∧ digitChar k ≠ 'µ' ∧
    digitChar k ≠ 'h' ∧ digitChar k ≠ '.' ∧ digitChar k ≠ '-' ∧
    (digitChar k).toNat - 48 = k := by
  decide

theorem readStep_digit (st : ReadState) (k : ℕ) (hk : k < 10) :
    readStep st (digitChar k)
      = ⟨st.total, st.unit, st.cur + k * st.place, st.place * 10, false, st.neg⟩ := by
  obtain ⟨h1, h2, h3, h4, h5, h6, h7, h8⟩ := digitChar_read k hk
  simp only [readStep, h1, h2, h3, h4, h5, h6, h7, h8, if_false]

/-- Reading a numeral adds the number, at the place value of the state. -/
theorem read_decimal (n : ℕ) :
    ∀ (t u c p : ℕ) (l ng : Bool), ∃ p' : ℕ,
      (decimal n).reverse.foldl readStep ⟨t, u, c, p, l, ng⟩
        = ⟨t, u, c + n * p, p', false, ng⟩ := by
  induction n using Nat.strong_induction_on with
  | _ n ih =>
    intro t u c p l ng
    by_cases h : n < 10
    · rw [decimal_of_lt n h]
      exact ⟨p * 10, by simp [readStep_digit _ n h]⟩
    · rw [decimal_of_ge n (by omega)]
      obtain ⟨p', hp'⟩ := ih (n / 10) (by omega) t u (c + n % 10 * p) (p * 10) false ng
      refine ⟨p', ?_⟩
      simp only [List.reverse_append, List.reverse_cons, List.reverse_nil, List.nil_append,
        List.singleton_append, List.foldl_cons,
        readStep_digit _ (n % 10) (Nat.mod_lt n (by decide)), hp']
      congr 1
      have := Nat.div_add_mod n 10
      calc c + n % 10 * p + n / 10 * (p * 10)
          = c + (10 * (n / 10) + n % 10) * p := by ring
        _ = c + n * p := by rw [this]

/-- Reading digits with their leading zeros adds their number and moves the
place value. -/
theorem read_digitsPad (i : ℕ) :
    ∀ (v : ℕ) (st : ReadState), st.lastS = false →
      (digitsPad i v).reverse.foldl readStep st
        = ⟨st.total, st.unit, st.cur + v % 10 ^ i * st.place, st.place * 10 ^ i, false,
            st.neg⟩ := by
  induction i with
  | zero =>
    intro v st hs
    obtain ⟨t, u, c, p, l, n⟩ := st
    simp only at hs
    subst hs
    simp [digitsPad, Nat.mod_one]
  | succ i ih =>
    intro v st hs
    simp only [digitsPad, List.reverse_append, List.reverse_cons, List.reverse_nil,
      List.nil_append, List.singleton_append, List.foldl_cons,
      readStep_digit st (v % 10) (Nat.mod_lt v (by decide))]
    rw [ih (v / 10) _ rfl]
    have hm := mod_pow_succ_low v i
    congr 1
    · rw [hm]; ring
    · rw [Nat.pow_succ]; ring

/-- Reading the digits of a fraction that is not zero gives a number `c` at a
place value `p` with `c / p` equal to the fraction. -/
theorem read_fracDigits (i : ℕ) :
    ∀ (v : ℕ) (st : ReadState), v % 10 ^ i ≠ 0 → st.cur = 0 → st.place = 1 →
      ∃ c p : ℕ,
        (fracDigits i v).reverse.foldl readStep st
          = ⟨st.total, st.unit, c, p, false, st.neg⟩ ∧
        c * 10 ^ i = v % 10 ^ i * p ∧ 0 < p := by
  induction i with
  | zero => intro v st h; simp [Nat.mod_one] at h
  | succ i ih =>
    intro v st h hc hp
    have hm := mod_pow_succ_low v i
    by_cases h10 : v % 10 = 0
    · obtain ⟨c, p, hfold, hcp, hpos⟩ := ih (v / 10) st (by omega) hc hp
      refine ⟨c, p, by simp only [fracDigits, h10, if_true]; exact hfold, ?_, hpos⟩
      rw [hm, h10, Nat.pow_succ]
      calc c * (10 ^ i * 10) = (c * 10 ^ i) * 10 := by ring
        _ = (v / 10 % 10 ^ i * p) * 10 := by rw [hcp]
        _ = (0 + 10 * (v / 10 % 10 ^ i)) * p := by ring
    · refine ⟨v % 10 ^ (i + 1), 10 ^ (i + 1), ?_, rfl, Nat.pow_pos (by decide)⟩
      simp only [fracDigits, h10, if_false, List.reverse_append, List.reverse_cons,
        List.reverse_nil, List.nil_append, List.singleton_append, List.foldl_cons,
        readStep_digit st (v % 10) (Nat.mod_lt v (by decide))]
      rw [read_digitsPad i (v / 10) _ rfl]
      simp only [hc, hp]
      congr 1
      · rw [hm]; ring
      · rw [Nat.pow_succ]; ring

theorem readStep_s (st : ReadState) :
    readStep st 's' = ⟨st.flush, 1000000000, 0, 1, true, st.neg⟩ := rfl

theorem readStep_m (st : ReadState) :
    readStep st 'm'
      = ⟨st.flush, if st.lastS then 1000000 else 60000000000, 0, 1, false, st.neg⟩ := rfl

theorem readStep_n (st : ReadState) :
    readStep st 'n' = ⟨st.flush, 1, 0, 1, false, st.neg⟩ := rfl

theorem readStep_mu (st : ReadState) :
    readStep st 'µ' = ⟨st.flush, 1000, 0, 1, false, st.neg⟩ := rfl

theorem readStep_h (st : ReadState) :
    readStep st 'h' = ⟨st.flush, 3600000000000, 0, 1, false, st.neg⟩ := rfl

theorem readStep_point (st : ReadState) :
    readStep st '.'
      = ⟨st.total + st.cur * st.unit / st.place, st.unit, 0, 1, false, st.neg⟩ := rfl

theorem readStep_minus (st : ReadState) :
    readStep st '-' = ⟨st.total, st.unit, st.cur, st.place, st.lastS, true⟩ := rfl

/-- Reading the fraction of a component adds it to the nanoseconds read. -/
theorem read_fracPart (i v : ℕ) (t : ℕ) (l n : Bool) :
    ∃ l' : Bool,
      (fracPart i v).reverse.foldl readStep ⟨t, 10 ^ i, 0, 1, l, n⟩
        = ⟨t + v % 10 ^ i, 10 ^ i, 0, 1, l', n⟩ := by
  by_cases h : v % 10 ^ i = 0
  · exact ⟨l, by simp [fracPart, h]⟩
  · obtain ⟨c, p, hfold, hcp, hpos⟩ := read_fracDigits i v ⟨t, 10 ^ i, 0, 1, l, n⟩ h rfl rfl
    refine ⟨false, ?_⟩
    simp only [fracPart, h, if_false, List.reverse_cons, List.foldl_append, hfold,
      List.foldl_cons, List.foldl_nil, readStep_point]
    rw [hcp, Nat.mul_div_cancel _ hpos]

theorem hmPart_reverse (m : ℕ) (h0 : m ≠ 0) :
    (hmPart m).reverse
      = 'm' :: ((decimal (m % 60)).reverse
          ++ (if m / 60 = 0 then [] else 'h' :: (decimal (m / 60)).reverse)) := by
  unfold hmPart
  by_cases hh : m / 60 = 0 <;> simp [h0, hh]

/-- Reading the hours and minutes of `m` whole minutes adds them. -/
theorem read_hmPart (m t u c p : ℕ) (ng : Bool) :
    ∃ st' : ReadState, (hmPart m).reverse.foldl readStep ⟨t, u, c, p, false, ng⟩ = st' ∧
      st'.flush = t + c * u + m * 60000000000 ∧ st'.neg = ng := by
  by_cases h0 : m = 0
  · subst h0
    exact ⟨⟨t, u, c, p, false, ng⟩, rfl, by simp [ReadState.flush], rfl⟩
  · obtain ⟨p1, hp1⟩ := read_decimal (m % 60) (t + c * u) 60000000000 0 1 false ng
    rw [hmPart_reverse m h0, List.foldl_cons, readStep_m, List.foldl_append]
    simp only [ReadState.flush, Bool.false_eq_true, if_false, hp1]
    by_cases hh : m / 60 = 0
    · refine ⟨⟨t + c * u, 60000000000, 0 + m % 60 * 1, p1, false, ng⟩, ?_, ?_, rfl⟩
      · simp only [hh, if_true, List.foldl_nil]
      · simp only [ReadState.flush]
        omega
    · obtain ⟨p2, hp2⟩ := read_decimal (m / 60)
        (t + c * u + (0 + m % 60 * 1) * 60000000000) 3600000000000 0 1 false ng
      refine ⟨⟨t + c * u + (0 + m % 60 * 1) * 60000000000, 3600000000000, 0 + m / 60 * 1,
        p2, false, ng⟩, ?_, ?_, rfl⟩
      · simp only [hh, if_false, List.foldl_cons, readStep_h, ReadState.flush]
        exact hp2
      · simp only [ReadState.flush]
        omega

theorem durationBody_small_reverse (u : ℕ) (h0 : u ≠ 0) :
    (u < 1000 → (durationBody u).reverse = 's' :: 'n' :: (decimal u).reverse) ∧
    (¬ u < 1000 → u < 1000000 → (durationBody u).reverse
      = 's' :: 'µ' :: ((fracPart 3 u).reverse ++ (decimal (u / 1000)).reverse)) ∧
    (¬ u < 1000000 → u < 1000000000 → (durationBody u).reverse
      = 's' :: 'm' :: ((fracPart 6 u).reverse ++ (decimal (u / 1000000)).reverse)) ∧
    (¬ u < 1000000000 → (durationBody u).reverse
      = 's' :: ((fracPart 9 u).reverse ++ ((decimal (u / 1000000000 % 60)).reverse
          ++ (hmPart (u / 1000000000 / 60)).reverse))) := by
  unfold durationBody
  refine ⟨?_, ?_, ?_, ?_⟩
  · intro h1
    simp [h0, h1]
  · intro h1 h2
    simp [h0, h1, h2]
  · intro h2 h3
    have h1 : ¬ u < 1000 := by omega
    simp [h0, h1, h2, h3]
  · intro h3
    have h1 : ¬ u < 1000 := by omega
    have h2 : ¬ u < 1000000 := by omega
    simp [h0, h1, h2, h3]

/-- Reading the text of `u` nanoseconds gives `u`. -/
theorem read_durationBody (u : ℕ) :
    ∃ st' : ReadState,
      (durationBody u).reverse.foldl readStep ⟨0, 1, 0, 1, false, false⟩ = st' ∧
      st'.flush = u ∧ st'.neg = false := by
  by_cases h0 : u = 0
  · subst h0
    exact ⟨_, rfl, by decide, by decide⟩
  obtain ⟨r1, r2, r3, r4⟩ := durationBody_small_reverse u h0
  by_cases h1 : u < 1000
  · obtain ⟨p, hp⟩ := read_decimal u 0 1 0 1 false false
    refine ⟨⟨0, 1, 0 + u * 1, p, false, false⟩, ?_, by simp [ReadState.flush], rfl⟩
    rw [r1 h1, List.foldl_cons, List.foldl_cons, readStep_s, readStep_n]
    exact hp
  by_cases h2 : u < 1000000
  · obtain ⟨l', hf⟩ := read_fracPart 3 u 0 false false
    obtain ⟨p, hp⟩ := read_decimal (u / 1000) (u % 1000) 1000 0 1 l' false
    simp only [Nat.zero_add, Nat.reducePow] at hf
    simp only [Nat.zero_add, Nat.mul_one] at hp
    refine ⟨⟨u % 1000, 1000, u / 1000, p, false, false⟩, ?_, ?_, rfl⟩
    · rw [r2 h1 h2, List.foldl_cons, List.foldl_cons, readStep_s, readStep_mu,
        List.foldl_append]
      simp only [ReadState.flush, Nat.zero_mul, Nat.add_zero]
      rw [hf]
      exact hp
    · simp only [ReadState.flush]
      omega
  by_cases h3 : u < 1000000000
  · obtain ⟨l', hf⟩ := read_fracPart 6 u 0 false false
    obtain ⟨p, hp⟩ := read_decimal (u / 1000000) (u % 1000000) 1000000 0 1 l' false
    simp only [Nat.zero_add, Nat.reducePow] at hf
    simp only [Nat.zero_add, Nat.mul_one] at hp
    refine ⟨⟨u % 1000000, 1000000, u / 1000000, p, false, false⟩, ?_, ?_, rfl⟩
    · rw [r3 h2 h3, List.foldl_cons, List.foldl_cons, readStep_s, readStep_m,
        List.foldl_append]
      simp only [ReadState.flush, Nat.zero_mul, Nat.add_zero, if_true]
      rw [hf]
      exact hp
    · simp only [ReadState.flush]
      omega
  · obtain ⟨l', hf⟩ := read_fracPart 9 u 0 true false
    obtain ⟨p, hp⟩ := read_decimal (u / 1000000000 % 60) (u % 1000000000) 1000000000 0 1 l' false
    obtain ⟨st', hst, hflush, hneg⟩ := read_hmPart (u / 1000000000 / 60)
      (u % 1000000000) 1000000000 (u / 1000000000 % 60) p false
    simp only [Nat.zero_add, Nat.reducePow] at hf
    simp only [Nat.zero_add, Nat.mul_one] at hp
    refine ⟨st', ?_, ?_, hneg⟩
    · rw [r4 h3, List.foldl_cons, readStep_s, List.foldl_append, List.foldl_append]
      simp only [ReadState.flush, Nat.zero_mul, Nat.add_zero]
      rw [hf, hp]
      exact hst
    · rw [hflush]
      omega

/-- Reading a text that is the sign of `d` and a body that reads as the absolute
value of `d` gives `d`. -/
theorem readDuration_mk (d : ℤ) (body : List Char) (st' : ReadState)
    (hst : body.reverse.foldl readStep ⟨0, 1, 0, 1, false, false⟩ = st')
    (hflush : st'.flush = d.natAbs) (hneg : st'.neg = false) :
    readDuration (String.mk ((if d < 0 then ['-'] else []) ++ body)) = d := by
  unfold readDuration
  simp only [List.reverse_append, List.foldl_append, hst]
  obtain ⟨t, u, c, p, l, ng⟩ := st'
  simp only at hneg
  subst hneg
  simp only [ReadState.flush] at hflush
  by_cases hd : d < 0
  · simp only [hd, if_true, List.reverse_cons, List.reverse_nil, List.nil_append,
      List.foldl_cons, List.foldl_nil, readStep_minus, ReadState.flush, hflush]
    omega
  · simp only [hd, if_false, List.reverse_nil, List.foldl_nil, ReadState.flush, hflush,
      Bool.false_eq_true]
    omega

/-- Reading the text of `shortDur` back gives the duration. -/
theorem readDuration_shortDur (d : ℤ) (h : d.natAbs < 2 ^ 64) :
    readDuration (shortDur d) = d := by
  by_cases hw : d = 0 ∨ d.natAbs % 60000000000 ≠ 0
  · have hu : ∀ k : ℕ, 0 < k → d.natAbs ≠ k * 60000000000 := by
      intro k hk hd
      rcases hw with h0 | hmod
      · subst h0
        simp at hd
        omega
      · rw [hd] at hmod
        omega
    rw [shortDur_other d h hu, durationString_eq d h]
    obtain ⟨st', hst, hflush, hneg⟩ := read_durationBody d.natAbs
    exact readDuration_mk d _ st' hst hflush hneg
  · have hk : 0 < d.natAbs / 60000000000 := by omega
    have hd : d.natAbs = d.natAbs / 60000000000 * 60000000000 := by omega
    rw [shortDur_whole_minutes d h _ hk hd]
    generalize d.natAbs / 60000000000 = k at hk hd
    by_cases hM : k % 60 = 0
    · obtain ⟨p, hp⟩ := read_decimal (k / 60) 0 3600000000000 0 1 false false
      simp only [hM, if_true]
      refine readDuration_mk d _ ⟨0, 3600000000000, 0 + k / 60 * 1, p, false, false⟩ ?_ ?_ rfl
      · rw [List.reverse_append]
        exact hp
      · simp only [ReadState.flush]
        omega
    · obtain ⟨st', hst, hflush, hneg⟩ := read_hmPart k 0 1 0 1 false
      have hk0 : k ≠ 0 := by omega
      have hform : (if k / 60 = 0 then [] else decimal (k / 60) ++ ['h']) ++ decimal (k % 60)
          ++ ['m'] = hmPart k := by
        unfold hmPart
        rw [if_neg hk0]
      simp only [hM, if_false, hform]
      refine readDuration_mk d _ st' hst ?_ hneg
      rw [hflush]
      omega

/-- C17: `shortDur` loses no information. For two durations in the range of
`time.Duration`, equal texts of `shortDur` come from equal durations. -/
theorem shortDur_injective (d1 d2 : ℤ)
    (h1lo : -(2 ^ 63) ≤ d1) (h1hi : d1 < 2 ^ 63)
    (h2lo : -(2 ^ 63) ≤ d2) (h2hi : d2 < 2 ^ 63)
    (h : shortDur d1 = shortDur d2) : d1 = d2 := by
  have e1 := readDuration_shortDur d1 (natAbs_lt_of_int64 d1 h1lo h1hi)
  have e2 := readDuration_shortDur d2 (natAbs_lt_of_int64 d2 h2lo h2hi)
  rw [← e1, ← e2, h]

/-- Witness of C17: the text `1h30m` of ninety minutes. -/
theorem shortDur_injective_witness :
    shortDur 5400000000000 = "1h30m" ∧ (5400000000000 : ℤ) = 90 * 60000000000 :=
  ⟨rfl, shortDur_injective 5400000000000 (90 * 60000000000)
    (by decide) (by decide) (by decide) (by decide) rfl⟩

end Docker
